import Mathlib

/-!
Verification of the jexl expression parser front end against its
specification.  The crate under src/ exposes only the facade
(Parser::new, Parser::parse) and its tests; the lexer, the grammar and
the AST types are produced by a parser-generator outside src/, so they
are modelled from the specification here and checked against the tests
kept in src/jexl-parser/src/lib.rs.
-/

namespace Jexl

/-- Modelled from the spec: character class for whitespace skipped between tokens. -/
def isWhitespaceChar (c : Char) : Bool :=
  c = ' ' || c = '\t' || c = '\n' || c = '\r'

/-- Modelled from the spec: decimal digit. -/
def isDigitChar (c : Char) : Bool :=
  48 ≤ c.toNat && c.toNat ≤ 57

/-- Modelled from the spec: ASCII letter. -/
def isLetterChar (c : Char) : Bool :=
  (65 ≤ c.toNat && c.toNat ≤ 90) || (97 ≤ c.toNat && c.toNat ≤ 122)

/-- Modelled from the spec: identifier start, a letter or underscore. -/
def isIdentStart (c : Char) : Bool :=
  isLetterChar c || c = '_'

/-- Modelled from the spec: identifier continuation, letters, digits, underscores. -/
def isIdentCont (c : Char) : Bool :=
  isIdentStart c || isDigitChar c

/-- Modelled from the spec: string literal delimiters, single or double quote. -/
def isQuoteChar (c : Char) : Bool :=
  c = '\x27' || c = '\x22'

/-- Modelled from the spec: the token kinds produced by the lexer; end of
input is represented by the end of the token list. -/
inductive TokenKind where
  | Number (text : String)
  | StringLit (raw : String)
  | Identifier (name : String)
  | Keyword (word : String)
  | Operator (symbol : String)
deriving DecidableEq, Repr

/-- Modelled from the spec: a token together with its byte offset in the input. -/
structure Token where
  kind : TokenKind
  offset : Nat
deriving DecidableEq, Repr

/-- Modelled from the spec: the error taxonomy of section 7; no variant can
carry an expression, so no error ever holds a partial tree. -/
inductive ParseError where
  | LexicalError (offset : Nat) (detail : String)
  | UnexpectedToken (offset : Nat) (found : TokenKind) (expected : Option (List String))
  | UnexpectedEndOfInput (expected : Option (List String))
  | ExtraInput (offset : Nat)
deriving DecidableEq, Repr

/-- Grammar-level error carrying the number of unconsumed tokens at the point
of failure instead of a byte offset; the pipeline converts it to a ParseError
by looking the offset up in the original token list. -/
inductive GrammarError where
  | UnexpectedToken (remaining : Nat) (found : TokenKind) (expected : Option (List String))
  | UnexpectedEndOfInput (expected : Option (List String))
  | ExtraInput (remaining : Nat)
deriving DecidableEq, Repr

/-- Modelled from the spec: the closed operator-code set of section 3. -/
inductive OpCode where
  | Add
  | Subtract
  | Multiply
  | Divide
  | Modulus
  | Equal
  | NotEqual
  | LessThan
  | LessEqual
  | GreaterThan
  | GreaterEqual
  | And
  | Or
  | Not
deriving DecidableEq, Repr

/-- Alias for the host string type, usable inside the Expression declaration. -/
abbrev Text := String

/-- Modelled from the spec: the AST node type of section 3; the 64-bit float
number values of the source are modelled as exact rationals. -/
inductive Expression where
  | Number (value : Rat)
  | String (text : Text)
  | Boolean (value : Bool)
  | Null
  | Identifier (name : Text)
  | Array (elements : List Expression)
  | Object (entries : List (Text × Expression))
  | UnaryOperation (operation : OpCode) (right : Expression)
  | BinaryOperation (operation : OpCode) (left : Expression) (right : Expression)
  | DotOperation (subject : Expression) (ident : Text)
  | IndexOperation (subject : Expression) (index : Expression)
  | Transform (name : Text) (subject : Expression) (args : Option (List Expression))

/-- Modelled from the spec: split a character list at the first occurrence of
the closing string delimiter; none when the string is unterminated. -/
def splitString (delim : Char) : List Char → Option (List Char × List Char)
  | [] => none
  | c :: cs =>
    if c = delim then some ([], cs)
    else
      match splitString delim cs with
      | none => none
      | some (content, rest) => some (c :: content, rest)

theorem splitString_some (delim : Char) :
    ∀ {cs content rest : List Char}, splitString delim cs = some (content, rest) →
      cs = content ++ delim :: rest ∧ delim ∉ content := by
  intro cs
  induction cs with
  | nil => intro content rest h; simp [splitString] at h
  | cons c cs ih =>
    intro content rest h
    by_cases hc : c = delim
    · simp [splitString, hc] at h
      obtain ⟨h1, h2⟩ := h
      subst h1; subst h2; subst hc
      simp
    · simp only [splitString, if_neg hc] at h
      cases hsp : splitString delim cs with
      | none => rw [hsp] at h; simp at h
      | some p =>
        rw [hsp] at h
        obtain ⟨ct, r⟩ := p
        simp at h
        obtain ⟨h1, h2⟩ := h
        subst h1; subst h2
        obtain ⟨e1, e2⟩ := ih hsp
        constructor
        · simp [e1]
        · simp [List.mem_cons]
          exact ⟨fun hh => hc hh.symm, e2⟩

theorem length_dropWhile_le (p : Char → Bool) (l : List Char) :
    (l.dropWhile p).length ≤ l.length := by
  induction l with
  | nil => simp
  | cons a l ih =>
    rw [List.dropWhile_cons]
    split
    · exact Nat.le_succ_of_le ih
    · simp

/-- Modelled from the spec: maximal munch of a number literal, a digit run with
an optional decimal point followed by at least one fractional digit; the first
digit has already been consumed.  Returns the consumed characters (including
that first digit) and the remaining input. -/
def lexNumberText (c : Char) (cs : List Char) : List Char × List Char :=
  match cs.dropWhile isDigitChar with
  | '.' :: r2 =>
    match r2.takeWhile isDigitChar with
    | [] => (c :: cs.takeWhile isDigitChar, cs.dropWhile isDigitChar)
    | frac => (c :: cs.takeWhile isDigitChar ++ '.' :: frac, r2.dropWhile isDigitChar)
  | _ => (c :: cs.takeWhile isDigitChar, cs.dropWhile isDigitChar)

theorem lexNumberText_snd_le (c : Char) (cs : List Char) :
    (lexNumberText c cs).2.length ≤ cs.length := by
  unfold lexNumberText
  split
  case _ r2 heq =>
    split
    · exact length_dropWhile_le _ _
    · have h1 : (r2.dropWhile isDigitChar).length ≤ r2.length := length_dropWhile_le _ _
      have h2 : (cs.dropWhile isDigitChar).length ≤ cs.length := length_dropWhile_le _ _
      rw [heq] at h2
      simp only [List.length_cons] at h2
      simp only []
      omega
  case _ => exact length_dropWhile_le _ _

/-- Modelled from the spec: operator and punctuation symbols, longest match
first where symbols overlap; returns the symbol text and whether it consumed
two characters. -/
def operatorSymbol (c : Char) (next : Option Char) : Option (String × Bool) :=
  if c = '=' then (if next = some '=' then some ("==", true) else none)
  else if c = '!' then (if next = some '=' then some ("!=", true) else some ("!", false))
  else if c = '<' then (if next = some '=' then some ("<=", true) else some ("<", false))
  else if c = '>' then (if next = some '=' then some (">=", true) else some (">", false))
  else if c = '&' then (if next = some '&' then some ("&&", true) else none)
  else if c = '|' then (if next = some '|' then some ("||", true) else some ("|", false))
  else if c = '+' then some ("+", false)
  else if c = '-' then some ("-", false)
  else if c = '*' then some ("*", false)
  else if c = '/' then some ("/", false)
  else if c = '%' then some ("%", false)
  else if c = '.' then some (".", false)
  else if c = '[' then some ("[", false)
  else if c = ']' then some ("]", false)
  else if c = '(' then some ("(", false)
  else if c = ')' then some (")", false)
  else if c = ',' then some (",", false)
  else if c = '\x7b' then some ("\x7b", false)
  else if c = '\x7d' then some ("\x7d", false)
  else if c = ':' then some (":", false)
  else none

/-- Modelled from the spec: the lexer; skips whitespace, recognizes numbers,
identifiers and keywords, quoted strings and operators, and reports a lexical
error with the offending byte offset otherwise. -/
def lexTokens : List Char → Nat → Except ParseError (List Token)
  | [], _ => .ok []
  | c :: cs, pos =>
    if isWhitespaceChar c then lexTokens cs (pos + 1)
    else if isDigitChar c then
      (lexTokens (lexNumberText c cs).2 (pos + (lexNumberText c cs).1.length)).map
        (fun ts => ⟨.Number (String.mk (lexNumberText c cs).1), pos⟩ :: ts)
    else if isIdentStart c then
      (lexTokens (cs.dropWhile isIdentCont) (pos + 1 + (cs.takeWhile isIdentCont).length)).map
        (fun ts =>
          ⟨(if String.mk (c :: cs.takeWhile isIdentCont) = "true"
               || String.mk (c :: cs.takeWhile isIdentCont) = "false"
               || String.mk (c :: cs.takeWhile isIdentCont) = "null"
             then TokenKind.Keyword (String.mk (c :: cs.takeWhile isIdentCont))
             else TokenKind.Identifier (String.mk (c :: cs.takeWhile isIdentCont))), pos⟩ :: ts)
    else if isQuoteChar c then
      match h : splitString c cs with
      | none => .error (.LexicalError pos "unterminated string literal")
      | some (content, rest) =>
        (lexTokens rest (pos + content.length + 2)).map
          (fun ts => ⟨.StringLit (String.mk (c :: (content ++ [c]))), pos⟩ :: ts)
    else
      match operatorSymbol c cs.head? with
      | some (sym, isTwo) =>
        (lexTokens (if isTwo then cs.tail else cs) (pos + if isTwo then 2 else 1)).map
          (fun ts => ⟨.Operator sym, pos⟩ :: ts)
      | none => .error (.LexicalError pos (String.mk [c]))
termination_by cs _ => cs.length
decreasing_by
  · simp only [List.length_cons]
    omega
  · have := lexNumberText_snd_le c cs
    simp only [List.length_cons]
    omega
  · have := length_dropWhile_le isIdentCont cs
    simp only [List.length_cons]
    omega
  · have hlen : cs.length = content.length + (rest.length + 1) := by
      rw [(splitString_some c h).1]
      simp
    simp only [List.length_cons]
    omega
  · have htail : cs.tail.length ≤ cs.length := by
      cases cs <;> simp
    simp only [List.length_cons]
    split <;> omega

/-- Modelled from the spec: numeric value of a digit list, most significant first. -/
def digitsToNat (ds : List Char) : Nat :=
  ds.foldl (fun acc c => 10 * acc + (c.toNat - 48)) 0

/-- Modelled from the spec: the numeric value of a number-literal text, an
integer part and an optional fractional part; exact rational arithmetic models
the 64-bit float of the source. -/
def decimalValue (text : String) : Rat :=
  match text.toList.dropWhile isDigitChar with
  | '.' :: frac =>
    (digitsToNat (text.toList.takeWhile isDigitChar) : Rat)
      + (digitsToNat frac : Rat) / ((10 : Rat) ^ frac.length)
  | _ => (digitsToNat (text.toList.takeWhile isDigitChar) : Rat)

/-- Modelled from the spec: strip the quote delimiters from a raw string token. -/
def stripQuotes (raw : String) : String :=
  String.mk (raw.toList.drop 1).dropLast

/-- Modelled from the spec: binary operators of each precedence level of
section 4.2, low to high. -/
def levelOps : Nat → List (String × OpCode)
  | 1 => [("||", .Or)]
  | 2 => [("&&", .And)]
  | 3 => [("==", .Equal), ("!=", .NotEqual)]
  | 4 => [("<", .LessThan), ("<=", .LessEqual), (">", .GreaterThan), (">=", .GreaterEqual)]
  | 5 => [("+", .Add), ("-", .Subtract)]
  | 6 => [("*", .Multiply), ("/", .Divide), ("%", .Modulus)]
  | _ => []

/-- Type of a parser for one expression over a token-kind list. -/
abbrev P := List TokenKind → Except GrammarError (Expression × List TokenKind)

/-- Modelled from the spec: one or more comma-separated expressions followed by
the closing symbol; used for array literals and transform argument lists. -/
def parseElementsW (pexpr : P) :
    Nat → String → List TokenKind → Except GrammarError (List Expression × List TokenKind)
  | 0, _, _ => .error (.UnexpectedEndOfInput none)
  | fuel + 1, closing, tokens =>
    match pexpr tokens with
    | .error e => .error e
    | .ok (e, rest) =>
      match rest with
      | .Operator "," :: rest2 =>
        (match parseElementsW pexpr fuel closing rest2 with
         | .error err => .error err
         | .ok (es, rest3) => .ok (e :: es, rest3))
      | .Operator sym :: rest2 =>
        if sym = closing then .ok ([e], rest2)
        else .error (.UnexpectedToken (rest2.length + 1) (.Operator sym) (some [",", closing]))
      | k :: rest2 => .error (.UnexpectedToken (rest2.length + 1) k (some [",", closing]))
      | [] => .error (.UnexpectedEndOfInput (some [",", closing]))

/-- Modelled from the spec: one or more object entries, each a string-literal
key, a colon and a value expression, then the closing brace; keys are stored
with their quote delimiters stripped. -/
def parseObjectEntriesW (pexpr : P) :
    Nat → List TokenKind → Except GrammarError (List (Text × Expression) × List TokenKind)
  | 0, _ => .error (.UnexpectedEndOfInput none)
  | fuel + 1, tokens =>
    match tokens with
    | .StringLit raw :: .Operator ":" :: rest =>
      (match pexpr rest with
       | .error e => .error e
       | .ok (v, rest2) =>
         match rest2 with
         | .Operator "," :: rest3 =>
           (match parseObjectEntriesW pexpr fuel rest3 with
            | .error err => .error err
            | .ok (es, rest4) => .ok ((stripQuotes raw, v) :: es, rest4))
         | .Operator "\x7d" :: rest3 => .ok ([(stripQuotes raw, v)], rest3)
         | k :: rest3 => .error (.UnexpectedToken (rest3.length + 1) k (some [",", "\x7d"]))
         | [] => .error (.UnexpectedEndOfInput (some [",", "\x7d"])))
    | .StringLit _ :: k :: rest => .error (.UnexpectedToken (rest.length + 1) k (some [":"]))
    | [.StringLit _] => .error (.UnexpectedEndOfInput (some [":"]))
    | k :: rest => .error (.UnexpectedToken (rest.length + 1) k (some ["string literal"]))
    | [] => .error (.UnexpectedEndOfInput (some ["string literal"]))

/-- Modelled from the spec: primary expressions, literals, identifiers,
grouping, array literals and object literals. -/
def parsePrimaryW (pexpr : P) (fuel : Nat) (tokens : List TokenKind) :
    Except GrammarError (Expression × List TokenKind) :=
  match tokens with
  | .Number text :: rest => .ok (.Number (decimalValue text), rest)
  | .StringLit raw :: rest => .ok (.String (stripQuotes raw), rest)
  | .Keyword w :: rest =>
    if w = "true" then .ok (.Boolean true, rest)
    else if w = "false" then .ok (.Boolean false, rest)
    else .ok (.Null, rest)
  | .Identifier name :: rest => .ok (.Identifier name, rest)
  | .Operator "(" :: rest =>
    (match pexpr rest with
     | .error e => .error e
     | .ok (e, rest2) =>
       match rest2 with
       | .Operator ")" :: rest3 => .ok (e, rest3)
       | k :: rest3 => .error (.UnexpectedToken (rest3.length + 1) k (some [")"]))
       | [] => .error (.UnexpectedEndOfInput (some [")"])))
  | .Operator "[" :: .Operator "]" :: rest => .ok (.Array [], rest)
  | .Operator "[" :: rest =>
    (match parseElementsW pexpr fuel "]" rest with
     | .error e => .error e
     | .ok (es, rest2) => .ok (.Array es, rest2))
  | .Operator "\x7b" :: .Operator "\x7d" :: rest => .ok (.Object [], rest)
  | .Operator "\x7b" :: rest =>
    (match parseObjectEntriesW pexpr fuel rest with
     | .error e => .error e
     | .ok (es, rest2) => .ok (.Object es, rest2))
  | .Operator sym :: rest =>
    .error (.UnexpectedToken (rest.length + 1) (.Operator sym) (some ["an expression"]))
  | [] => .error (.UnexpectedEndOfInput (some ["an expression"]))

/-- Modelled from the spec: the postfix-suffix loop, member access, indexing
and transforms, chained left to right after a primary expression. -/
def parseSuffixLoopW (pexpr : P) :
    Nat → Expression → List TokenKind → Except GrammarError (Expression × List TokenKind)
  | 0, _, _ => .error (.UnexpectedEndOfInput none)
  | fuel + 1, subject, tokens =>
    match tokens with
    | .Operator "." :: .Identifier name :: rest =>
      parseSuffixLoopW pexpr fuel (.DotOperation subject name) rest
    | .Operator "." :: k :: rest =>
      .error (.UnexpectedToken (rest.length + 1) k (some ["identifier"]))
    | [.Operator "."] => .error (.UnexpectedEndOfInput (some ["identifier"]))
    | .Operator "[" :: rest =>
      (match pexpr rest with
       | .error e => .error e
       | .ok (ix, rest2) =>
         match rest2 with
         | .Operator "]" :: rest3 =>
           parseSuffixLoopW pexpr fuel (.IndexOperation subject ix) rest3
         | k :: rest3 => .error (.UnexpectedToken (rest3.length + 1) k (some ["]"]))
         | [] => .error (.UnexpectedEndOfInput (some ["]"])))
    | .Operator "|" :: .Identifier name :: .Operator "(" :: rest =>
      (match parseElementsW pexpr fuel ")" rest with
       | .error e => .error e
       | .ok (args, rest2) =>
         parseSuffixLoopW pexpr fuel (.Transform name subject (some args)) rest2)
    | .Operator "|" :: .Identifier name :: rest =>
      parseSuffixLoopW pexpr fuel (.Transform name subject none) rest
    | .Operator "|" :: k :: rest =>
      .error (.UnexpectedToken (rest.length + 1) k (some ["identifier"]))
    | [.Operator "|"] => .error (.UnexpectedEndOfInput (some ["identifier"]))
    | _ => .ok (subject, tokens)

/-- Modelled from the spec: a primary expression followed by its postfix suffixes. -/
def parseSuffixedW (pexpr : P) (fuel : Nat) (tokens : List TokenKind) :
    Except GrammarError (Expression × List TokenKind) :=
  match parsePrimaryW pexpr fuel tokens with
  | .error e => .error e
  | .ok (e, rest) => parseSuffixLoopW pexpr fuel e rest

/-- Modelled from the spec: unary prefix operators, logical not and negation. -/
def parseUnaryW (pexpr : P) : Nat → List TokenKind → Except GrammarError (Expression × List TokenKind)
  | 0, _ => .error (.UnexpectedEndOfInput none)
  | fuel + 1, tokens =>
    match tokens with
    | .Operator "!" :: rest =>
      (match parseUnaryW pexpr fuel rest with
       | .error e => .error e
       | .ok (e, rest2) => .ok (.UnaryOperation .Not e, rest2))
    | .Operator "-" :: rest =>
      (match parseUnaryW pexpr fuel rest with
       | .error e => .error e
       | .ok (e, rest2) => .ok (.UnaryOperation .Subtract e, rest2))
    | _ => parseSuffixedW pexpr fuel tokens

/-- Modelled from the spec: the left-associative loop over one binary
precedence level. -/
def parseBinLoopW (sub : P) (ops : List (String × OpCode)) :
    Nat → Expression → List TokenKind → Except GrammarError (Expression × List TokenKind)
  | 0, _, _ => .error (.UnexpectedEndOfInput none)
  | fuel + 1, left, tokens =>
    match tokens with
    | .Operator sym :: rest =>
      (match List.lookup sym ops with
       | some op =>
         (match sub rest with
          | .error e => .error e
          | .ok (right, rest2) => parseBinLoopW sub ops fuel (.BinaryOperation op left right) rest2)
       | none => .ok (left, tokens))
    | _ => .ok (left, tokens)

/-- Modelled from the spec: the tower of binary precedence levels; the index n
handles precedence level 6 - n + 1 operands, with n = 0 delegating to the
unary parser. -/
def parseLevelsW (pexpr : P) (fuel : Nat) : Nat → List TokenKind → Except GrammarError (Expression × List TokenKind)
  | 0, tokens => parseUnaryW pexpr fuel tokens
  | n + 1, tokens =>
    match parseLevelsW pexpr fuel n tokens with
    | .error e => .error e
    | .ok (left, rest) =>
      parseBinLoopW (parseLevelsW pexpr fuel n) (levelOps (6 - n)) fuel left rest

/-- Modelled from the spec: the expression grammar; fuel decreases at each
nesting of the full grammar inside itself. -/
def parseExpr : Nat → List TokenKind → Except GrammarError (Expression × List TokenKind)
  | 0, _ => .error (.UnexpectedEndOfInput none)
  | fuel + 1, tokens => parseLevelsW (parseExpr fuel) fuel 6 tokens

/-- Modelled from the spec: run the grammar over the whole token list; trailing
unconsumed tokens are an extra-input error. -/
def parseTokensKinds (kinds : List TokenKind) : Except GrammarError Expression :=
  match parseExpr (kinds.length + 2) kinds with
  | .error e => .error e
  | .ok (e, []) => .ok e
  | .ok (_, _ :: rest) => .error (.ExtraInput (rest.length + 1))

/-- Byte offset of the token that starts the unconsumed suffix of length rem. -/
def offsetOfRemaining (toks : List Token) (rem : Nat) : Nat :=
  match (toks.drop (toks.length - rem)).head? with
  | some t => t.offset
  | none => 0

/-- Convert a grammar error to the public taxonomy using token offsets. -/
def mapGrammarError (toks : List Token) : GrammarError → ParseError
  | .UnexpectedToken rem k exp => .UnexpectedToken (offsetOfRemaining toks rem) k exp
  | .UnexpectedEndOfInput exp => .UnexpectedEndOfInput exp
  | .ExtraInput rem => .ExtraInput (offsetOfRemaining toks rem)

/-- Modelled from the spec: the full parsing pipeline, lexer then grammar. -/
def parse (input : String) : Except ParseError Expression :=
  match lexTokens input.toList 0 with
  | .error e => .error e
  | .ok toks =>
    match parseTokensKinds (toks.map Token.kind) with
    | .ok e => .ok e
    | .error ge => .error (mapGrammarError toks ge)

/-- The parser facade of src/jexl-parser/src/lib.rs; it holds no mutable state. -/
structure Parser

/-- The constructor of the facade from the source. -/
def Parser.new : Parser := ⟨⟩

/-- The parse method of the facade from the source: it takes the facade by
shared reference and delegates to the parsing pipeline, so its result depends
only on the input string. -/
def Parser.parse (_self : Parser) (input : String) : Except ParseError Expression :=
  Jexl.parse input

/-- Source text of a token, recoverable from its kind. -/
def tokenText : TokenKind → String
  | .Number t => t
  | .StringLit r => r
  | .Identifier n => n
  | .Keyword w => w
  | .Operator s => s

/-- The three reserved keywords. -/
def keywordList : List String := ["true", "false", "null"]

/-- The two-character operator symbols. -/
def twoCharSyms : List String := ["==", "!=", "<=", ">=", "&&", "||"]

/-- The one-character operator symbols. -/
def oneCharSyms : List String :=
  ["+", "-", "*", "/", "%", "<", ">", "!", "|", ".", "[", "]", "(", ")", ",", "\x7b", "\x7d", ":"]

/-- A number literal: a nonempty digit run, optionally followed by a decimal
point and a nonempty digit run. -/
def validNumberLiteral (s : String) : Bool :=
  !(s.toList.takeWhile isDigitChar).isEmpty &&
    (match s.toList.dropWhile isDigitChar with
     | [] => true
     | '.' :: frac => !frac.isEmpty && frac.all isDigitChar
     | _ => false)

/-- An identifier-shaped text. -/
def validIdentText (s : String) : Bool :=
  match s.toList with
  | [] => false
  | c :: cs => isIdentStart c && cs.all isIdentCont

/-- A raw string token: a quote, content free of that quote, the same quote. -/
def validStringToken (r : String) : Bool :=
  match r.toList with
  | [] => false
  | q :: cs =>
    isQuoteChar q && !cs.isEmpty && decide (cs.getLast? = some q)
      && cs.dropLast.all (fun c => !(c = q))

/-- Well-formed token kinds: exactly the shapes the lexer can produce. -/
def wfKind : TokenKind → Bool
  | .Number t => validNumberLiteral t
  | .StringLit r => validStringToken r
  | .Identifier n => validIdentText n && !(keywordList.contains n)
  | .Keyword w => keywordList.contains w
  | .Operator s => twoCharSyms.contains s || oneCharSyms.contains s

/-- Does a digit follow? -/
def optIsDigit : Option Char → Bool
  | some c => isDigitChar c
  | none => false

/-- Whether re-lexing stops after a token of kind k when the next one or two
characters are a and b: reading from the front of the input then consumes
exactly the token text of k. -/
def stops2 (k : TokenKind) (a b : Option Char) : Bool :=
  match a with
  | none => true
  | some d =>
    match k with
    | .Number t =>
      !isDigitChar d && (t.toList.any (fun c => c = '.') || !(d = '.') || !optIsDigit b)
    | .Identifier _ => !isIdentCont d
    | .Keyword _ => !isIdentCont d
    | .StringLit _ => true
    | .Operator s =>
      !(((s = "<" || s = ">" || s = "!") && d = '=') || (s = "|" && d = '|'))

/-- Whether re-lexing stops after a token of kind k when s is the rest of the input. -/
def stopsAfter (k : TokenKind) (s : List Char) : Bool :=
  stops2 k s.head? (s.drop 1).head?

/-- Interleave token texts with whitespace gaps: one gap before each token and
one trailing gap. -/
def renderK : List TokenKind → List (List Char) → List Char
  | [], [] => []
  | [], w :: _ => w
  | k :: ks, [] => (tokenText k).toList ++ renderK ks []
  | k :: ks, w :: ws => w ++ ((tokenText k).toList ++ renderK ks ws)

/-- The tokens, with offsets, that lexing an interleaving produces. -/
def tokensFromRender : List TokenKind → List (List Char) → Nat → List Token
  | [], _, _ => []
  | _ :: _, [], _ => []
  | k :: ks, w :: ws, pos =>
    ⟨k, pos + w.length⟩ ::
      tokensFromRender ks ws (pos + w.length + (tokenText k).toList.length)

/-- Every token of the interleaving stops against what follows it. -/
def seqStops : List TokenKind → List (List Char) → Bool
  | [], _ => true
  | _ :: ks, [] => seqStops ks []
  | k :: ks, _ :: ws => stopsAfter k (renderK ks ws) && seqStops ks ws

/-- Insert extra whitespace into each gap. -/
def padGaps (ws extra : List (List Char)) : List (List Char) :=
  List.zipWith (fun a b => a ++ b) ws extra

/-- The exact decimal value of a number literal: all its digits read as an
integer, divided by ten to the number of fractional digits. -/
def exactDecimalValue (text : String) : Rat :=
  (digitsToNat (text.toList.filter (fun c => !(c = '.'))) : Rat)
    / ((10 : Rat) ^ ((text.toList.dropWhile (fun c => !(c = '.'))).drop 1).length)

theorem digit_not_white {c : Char} (h : isDigitChar c = true) : isWhitespaceChar c = false := by
  rcases Bool.eq_false_or_eq_true (isWhitespaceChar c) with hw | hw
  · exfalso
    unfold isWhitespaceChar at hw
    unfold isDigitChar at h
    simp only [Bool.or_eq_true, decide_eq_true_eq] at hw
    simp only [Bool.and_eq_true, decide_eq_true_eq] at h
    rcases hw with ((rfl | rfl) | rfl) | rfl <;> exact absurd h (by decide)
  · exact hw

theorem white_not_digit {c : Char} (h : isWhitespaceChar c = true) : isDigitChar c = false := by
  rcases Bool.eq_false_or_eq_true (isDigitChar c) with hd | hd
  · rw [digit_not_white hd] at h
    exact absurd h (by decide)
  · exact hd

theorem identStart_not_digit {c : Char} (h : isIdentStart c = true) : isDigitChar c = false := by
  rcases Bool.eq_false_or_eq_true (isDigitChar c) with hd | hd
  · exfalso
    unfold isIdentStart isLetterChar at h
    unfold isDigitChar at hd
    simp only [Bool.or_eq_true, Bool.and_eq_true, decide_eq_true_eq] at h
    simp only [Bool.and_eq_true, decide_eq_true_eq] at hd
    rcases h with (⟨h1, h2⟩ | ⟨h1, h2⟩) | rfl
    · omega
    · omega
    · exact absurd hd (by decide)
  · exact hd

theorem identStart_not_white {c : Char} (h : isIdentStart c = true) : isWhitespaceChar c = false := by
  rcases Bool.eq_false_or_eq_true (isWhitespaceChar c) with hw | hw
  · exfalso
    unfold isWhitespaceChar at hw
    simp only [Bool.or_eq_true, decide_eq_true_eq] at hw
    rcases hw with ((rfl | rfl) | rfl) | rfl <;> exact absurd h (by decide)
  · exact hw

theorem white_not_identStart {c : Char} (h : isWhitespaceChar c = true) : isIdentStart c = false := by
  rcases Bool.eq_false_or_eq_true (isIdentStart c) with hs | hs
  · rw [identStart_not_white hs] at h
    exact absurd h (by decide)
  · exact hs

theorem white_not_identCont {c : Char} (h : isWhitespaceChar c = true) : isIdentCont c = false := by
  unfold isIdentCont
  rw [white_not_identStart h, white_not_digit h]
  rfl

theorem white_ne_dot {c : Char} (h : isWhitespaceChar c = true) : ¬(c = '.') := by
  intro rfl0
  subst rfl0
  exact absurd h (by decide)

theorem white_ne_eq {c : Char} (h : isWhitespaceChar c = true) : ¬(c = '=') := by
  intro rfl0
  subst rfl0
  exact absurd h (by decide)

theorem white_ne_pipe {c : Char} (h : isWhitespaceChar c = true) : ¬(c = '|') := by
  intro rfl0
  subst rfl0
  exact absurd h (by decide)

theorem quote_not_white {c : Char} (h : isQuoteChar c = true) : isWhitespaceChar c = false := by
  unfold isQuoteChar at h
  simp only [Bool.or_eq_true, decide_eq_true_eq] at h
  rcases h with rfl | rfl <;> decide

theorem quote_not_digit {c : Char} (h : isQuoteChar c = true) : isDigitChar c = false := by
  unfold isQuoteChar at h
  simp only [Bool.or_eq_true, decide_eq_true_eq] at h
  rcases h with rfl | rfl <;> decide

theorem quote_not_identStart {c : Char} (h : isQuoteChar c = true) : isIdentStart c = false := by
  unfold isQuoteChar at h
  simp only [Bool.or_eq_true, decide_eq_true_eq] at h
  rcases h with rfl | rfl <;> decide

theorem string_mk_toList (s : String) : String.mk s.toList = s := rfl

theorem takeWhile_eq_nil_of_head {p : Char → Bool} {S : List Char}
    (h : ∀ d, S.head? = some d → p d = false) : S.takeWhile p = [] := by
  cases S with
  | nil => rfl
  | cons d S2 =>
    rw [List.takeWhile_cons_of_neg]
    simp [h d rfl]

theorem dropWhile_eq_self_of_head {p : Char → Bool} {S : List Char}
    (h : ∀ d, S.head? = some d → p d = false) : S.dropWhile p = S := by
  cases S with
  | nil => rfl
  | cons d S2 =>
    rw [List.dropWhile_cons_of_neg]
    simp [h d rfl]

theorem all_takeWhile (p : Char → Bool) (l : List Char) : (l.takeWhile p).all p = true := by
  induction l with
  | nil => rfl
  | cons a l ih =>
    rw [List.takeWhile_cons]
    rcases Bool.eq_false_or_eq_true (p a) with hp | hp
    · simp [hp, ih]
    · simp [hp]

/-- Re-lexing always stops before a whitespace character. -/
theorem stops2_of_white {k : TokenKind} {d : Char} (h : isWhitespaceChar d = true)
    (b : Option Char) : stops2 k (some d) b = true := by
  cases k with
  | Number t => simp [stops2, white_not_digit h, white_ne_dot h]
  | Identifier n => simp [stops2, white_not_identCont h]
  | Keyword w => simp [stops2, white_not_identCont h]
  | StringLit r => simp [stops2]
  | Operator s => simp [stops2, white_ne_eq h, white_ne_pipe h]

theorem lexTokens_nil (pos : Nat) : lexTokens [] pos = .ok [] := by
  simp [lexTokens]

theorem lexTokens_white_cons {c : Char} (h : isWhitespaceChar c = true) (cs : List Char)
    (pos : Nat) : lexTokens (c :: cs) pos = lexTokens cs (pos + 1) := by
  simp [lexTokens, h]

theorem lexTokens_white_append {ws : List Char} (h : ws.all isWhitespaceChar = true)
    (cs : List Char) (pos : Nat) :
    lexTokens (ws ++ cs) pos = lexTokens cs (pos + ws.length) := by
  induction ws generalizing pos with
  | nil => simp
  | cons w ws ih =>
    simp only [List.all_cons, Bool.and_eq_true] at h
    rw [List.cons_append, lexTokens_white_cons h.1, ih h.2]
    congr 1
    simp only [List.length_cons]
    omega

theorem stops_head_digit {t : String} {S : List Char}
    (hstop : stopsAfter (.Number t) S = true) :
    ∀ d, S.head? = some d → isDigitChar d = false := by
  intro d hd
  unfold stopsAfter stops2 at hstop
  rw [hd] at hstop
  simp only [Bool.and_eq_true, Bool.not_eq_true'] at hstop
  exact hstop.1

theorem stops_number_dot {t : String} {r2 : List Char}
    (hnd : t.toList.any (fun c => c = '.') = false)
    (hstop : stopsAfter (.Number t) ('.' :: r2) = true) :
    ∀ e, r2.head? = some e → isDigitChar e = false := by
  intro e he
  have hdd : isDigitChar '.' = false := by decide
  have hdot2 : (!(decide ('.' = '.'))) = false := by decide
  unfold stopsAfter stops2 at hstop
  simp only [List.head?_cons, List.drop_one, List.tail_cons, he, hnd, optIsDigit, hdd,
    hdot2] at hstop
  simpa using hstop

/-- Re-lexing a number literal at the front of the input consumes exactly the
literal and yields a Number token. -/
theorem lexTokens_number (t : String) (S : List Char) (pos : Nat)
    (hwf : validNumberLiteral t = true)
    (hstop : stopsAfter (.Number t) S = true) :
    lexTokens (t.toList ++ S) pos
      = (lexTokens S (pos + t.toList.length)).map (fun ts => ⟨.Number t, pos⟩ :: ts) := by
  have hheads := stops_head_digit hstop
  have htwS : S.takeWhile isDigitChar = [] := takeWhile_eq_nil_of_head hheads
  have hdwS : S.dropWhile isDigitChar = S := dropWhile_eq_self_of_head hheads
  unfold validNumberLiteral at hwf
  simp only [Bool.and_eq_true] at hwf
  obtain ⟨hne, hrest⟩ := hwf
  have hint : t.toList.takeWhile isDigitChar ≠ [] := by
    intro hemp
    rw [hemp] at hne
    exact absurd hne (by decide)
  split at hrest
  · -- no fractional part: the whole literal is digits
    rename_i heq
    have hLeq : t.toList.takeWhile isDigitChar = t.toList := by
      have h0 := List.takeWhile_append_dropWhile (p := isDigitChar) (l := t.toList)
      rw [heq, List.append_nil] at h0
      exact h0
    have hall : t.toList.all isDigitChar = true := by
      rw [← hLeq]
      exact all_takeWhile _ _
    have hnd : t.toList.any (fun c => c = '.') = false := by
      rcases Bool.eq_false_or_eq_true (t.toList.any (fun c => c = '.')) with ha | ha
      · exfalso
        simp only [List.any_eq_true, decide_eq_true_eq] at ha
        obtain ⟨x, hx, rfl⟩ := ha
        have hdig := (List.all_eq_true.mp hall) _ hx
        exact absurd hdig (by decide)
      · exact ha
    obtain ⟨c, ds, hL⟩ : ∃ c ds, t.toList = c :: ds := by
      rcases hLs : t.toList with _ | ⟨c, ds⟩
      · exfalso
        apply hint
        rw [hLs]
        rfl
      · exact ⟨c, ds, rfl⟩
    rw [hL] at hall
    simp only [List.all_cons, Bool.and_eq_true] at hall
    obtain ⟨hc, hds⟩ := hall
    have htake : (ds ++ S).takeWhile isDigitChar = ds := by
      rw [List.takeWhile_append_of_pos (by simpa [List.all_eq_true] using hds), htwS,
        List.append_nil]
    have hdrop : (ds ++ S).dropWhile isDigitChar = S := by
      rw [List.dropWhile_append_of_pos (by simpa [List.all_eq_true] using hds), hdwS]
    have hlex : lexNumberText c (ds ++ S) = (c :: ds, S) := by
      unfold lexNumberText
      simp only [htake, hdrop]
      cases S with
      | nil => rfl
      | cons d S2 =>
        by_cases hddot : d = '.'
        · subst hddot
          have hr2 : S2.takeWhile isDigitChar = [] := by
            apply takeWhile_eq_nil_of_head
            intro e he
            exact stops_number_dot hnd hstop e he
          simp only [hr2]
        · split
          all_goals try rfl
          all_goals
            rename_i r2 heqd
            simp only [List.cons.injEq] at heqd
            exact absurd heqd.1 hddot
    rw [hL, List.cons_append, lexTokens]
    simp only [digit_not_white hc, hc, Bool.false_eq_true, if_false, if_true, hlex]
    have hmk : String.mk (c :: ds) = t := by
      rw [← hL]
      exact string_mk_toList t
    rw [hmk]
  · -- a decimal point followed by a nonempty fractional digit run
    rename_i frac heq
    simp only [Bool.and_eq_true] at hrest
    obtain ⟨hfne, hfall⟩ := hrest
    have hfrne : frac ≠ [] := by
      intro hemp
      rw [hemp] at hfne
      exact absurd hfne (by decide)
    have hds0 : t.toList = t.toList.takeWhile isDigitChar ++ '.' :: frac := by
      conv_lhs => rw [← List.takeWhile_append_dropWhile (p := isDigitChar) (l := t.toList)]
      rw [heq]
    have hnd : t.toList.any (fun c => c = '.') = true := by
      simp only [List.any_eq_true, decide_eq_true_eq]
      refine ⟨'.', ?_, rfl⟩
      rw [hds0]
      exact List.mem_append_right _ (List.mem_cons_self _ _)
    obtain ⟨c, ds, hInt⟩ : ∃ c ds, t.toList.takeWhile isDigitChar = c :: ds := by
      rcases hLs : t.toList.takeWhile isDigitChar with _ | ⟨c, ds⟩
      · exact absurd hLs hint
      · exact ⟨c, ds, rfl⟩
    have hallint : (c :: ds).all isDigitChar = true := by
      rw [← hInt]
      exact all_takeWhile _ _
    simp only [List.all_cons, Bool.and_eq_true] at hallint
    obtain ⟨hc, hds⟩ := hallint
    have harr : t.toList ++ S = c :: (ds ++ '.' :: (frac ++ S)) := by
      rw [hds0, hInt]
      simp
    have htake : (ds ++ '.' :: (frac ++ S)).takeWhile isDigitChar = ds := by
      rw [List.takeWhile_append_of_pos (by simpa [List.all_eq_true] using hds)]
      rw [List.takeWhile_cons_of_neg (by decide), List.append_nil]
    have hdrop : (ds ++ '.' :: (frac ++ S)).dropWhile isDigitChar = '.' :: (frac ++ S) := by
      rw [List.dropWhile_append_of_pos (by simpa [List.all_eq_true] using hds)]
      rw [List.dropWhile_cons_of_neg (by decide)]
    have htakef : (frac ++ S).takeWhile isDigitChar = frac := by
      rw [List.takeWhile_append_of_pos (by simpa [List.all_eq_true] using hfall), htwS,
        List.append_nil]
    have hdropf : (frac ++ S).dropWhile isDigitChar = S := by
      rw [List.dropWhile_append_of_pos (by simpa [List.all_eq_true] using hfall), hdwS]
    have hlex : lexNumberText c (ds ++ '.' :: (frac ++ S)) = (c :: ds ++ '.' :: frac, S) := by
      obtain ⟨f, fs, rfl⟩ : ∃ f fs, frac = f :: fs := by
        cases frac with
        | nil => exact absurd rfl hfrne
        | cons f fs => exact ⟨f, fs, rfl⟩
      unfold lexNumberText
      simp only [htake, hdrop, htakef, hdropf]
    rw [harr, lexTokens]
    simp only [digit_not_white hc, hc, Bool.false_eq_true, if_false, if_true, hlex]
    have htL : c :: ds ++ '.' :: frac = t.toList := by
      rw [hds0, hInt]
    rw [htL]
    rfl
  · rename_i h1 h2
    exact absurd hrest (by decide)

theorem stops_ident_head {n : String} {S : List Char}
    (hstop : stopsAfter (.Identifier n) S = true) :
    ∀ d, S.head? = some d → isIdentCont d = false := by
  intro d hd
  unfold stopsAfter stops2 at hstop
  rw [hd] at hstop
  simpa using hstop

theorem stops_keyword_head {w : String} {S : List Char}
    (hstop : stopsAfter (.Keyword w) S = true) :
    ∀ d, S.head? = some d → isIdentCont d = false := by
  intro d hd
  unfold stopsAfter stops2 at hstop
  rw [hd] at hstop
  simpa using hstop

/-- Re-lexing an identifier-shaped text at the front of the input consumes
exactly that text. -/
theorem lexTokens_identlike (c : Char) (cs : List Char) (S : List Char) (pos : Nat)
    (hc : isIdentStart c = true) (hcs : cs.all isIdentCont = true)
    (hstopS : ∀ d, S.head? = some d → isIdentCont d = false) :
    lexTokens ((c :: cs) ++ S) pos
      = (lexTokens S (pos + (c :: cs).length)).map
          (fun ts =>
            ⟨(if String.mk (c :: cs) = "true" || String.mk (c :: cs) = "false"
                 || String.mk (c :: cs) = "null"
               then TokenKind.Keyword (String.mk (c :: cs))
               else TokenKind.Identifier (String.mk (c :: cs))), pos⟩ :: ts) := by
  have htake : (cs ++ S).takeWhile isIdentCont = cs := by
    rw [List.takeWhile_append_of_pos (by simpa [List.all_eq_true] using hcs),
      takeWhile_eq_nil_of_head hstopS, List.append_nil]
  have hdrop : (cs ++ S).dropWhile isIdentCont = S := by
    rw [List.dropWhile_append_of_pos (by simpa [List.all_eq_true] using hcs),
      dropWhile_eq_self_of_head hstopS]
  rw [List.cons_append, lexTokens]
  simp only [identStart_not_white hc, identStart_not_digit hc, hc, Bool.false_eq_true,
    if_false, if_true, htake, hdrop]
  have hpos : pos + 1 + cs.length = pos + (c :: cs).length := by
    simp only [List.length_cons]
    omega
  rw [hpos]

/-- Re-lexing an identifier that is not a keyword yields an Identifier token. -/
theorem lexTokens_identifier (n : String) (S : List Char) (pos : Nat)
    (hv : validIdentText n = true) (hnk : keywordList.contains n = false)
    (hstop : stopsAfter (.Identifier n) S = true) :
    lexTokens (n.toList ++ S) pos
      = (lexTokens S (pos + n.toList.length)).map (fun ts => ⟨.Identifier n, pos⟩ :: ts) := by
  unfold validIdentText at hv
  split at hv
  · exact absurd hv (by decide)
  · rename_i c cs heq
    simp only [Bool.and_eq_true] at hv
    obtain ⟨hc, hcs⟩ := hv
    rw [heq, lexTokens_identlike c cs S pos hc hcs (stops_ident_head hstop)]
    have hmk : String.mk (c :: cs) = n := by
      rw [← heq]
      exact string_mk_toList n
    rw [hmk]
    have h1 : ¬(n = "true") := by
      intro hx
      rw [hx] at hnk
      exact absurd hnk (by decide)
    have h2 : ¬(n = "false") := by
      intro hx
      rw [hx] at hnk
      exact absurd hnk (by decide)
    have h3 : ¬(n = "null") := by
      intro hx
      rw [hx] at hnk
      exact absurd hnk (by decide)
    have hcond : (decide (n = "true") || decide (n = "false") || decide (n = "null")) = false := by
      simp [h1, h2, h3]
    simp only [hcond, Bool.false_eq_true, if_false]

/-- Re-lexing a reserved keyword yields a Keyword token. -/
theorem lexTokens_keyword (w : String) (S : List Char) (pos : Nat)
    (hwf : keywordList.contains w = true)
    (hstop : stopsAfter (.Keyword w) S = true) :
    lexTokens (w.toList ++ S) pos
      = (lexTokens S (pos + w.toList.length)).map (fun ts => ⟨.Keyword w, pos⟩ :: ts) := by
  have hh := stops_keyword_head hstop
  simp only [keywordList, List.contains_cons, List.contains_nil, Bool.or_eq_true,
    beq_iff_eq] at hwf
  rcases hwf with rfl | rfl | rfl | h
  · rw [show ("true" : String).toList = ['t', 'r', 'u', 'e'] from rfl,
      lexTokens_identlike 't' ['r', 'u', 'e'] S pos (by decide) (by decide) hh]
    rfl
  · rw [show ("false" : String).toList = ['f', 'a', 'l', 's', 'e'] from rfl,
      lexTokens_identlike 'f' ['a', 'l', 's', 'e'] S pos (by decide) (by decide) hh]
    rfl
  · rw [show ("null" : String).toList = ['n', 'u', 'l', 'l'] from rfl,
      lexTokens_identlike 'n' ['u', 'l', 'l'] S pos (by decide) (by decide) hh]
    rfl
  · exact absurd h (by simp)

theorem splitString_append_delim (q : Char) {content : List Char} (rest : List Char)
    (h : content.all (fun c => !(c = q)) = true) :
    splitString q (content ++ q :: rest) = some (content, rest) := by
  induction content with
  | nil => simp [splitString]
  | cons c cs ih =>
    simp only [List.all_cons, Bool.and_eq_true] at h
    obtain ⟨h1, h2⟩ := h
    have hc : ¬(c = q) := by simpa using h1
    rw [List.cons_append]
    unfold splitString
    rw [if_neg hc, ih h2]

/-- Re-lexing a raw quoted string literal yields a StringLit token, whatever
follows it. -/
theorem lexTokens_stringlit (r : String) (S : List Char) (pos : Nat)
    (hwf : validStringToken r = true) :
    lexTokens (r.toList ++ S) pos
      = (lexTokens S (pos + r.toList.length)).map (fun ts => ⟨.StringLit r, pos⟩ :: ts) := by
  unfold validStringToken at hwf
  split at hwf
  · exact absurd hwf (by decide)
  · rename_i q cs heq
    simp only [Bool.and_eq_true, decide_eq_true_eq] at hwf
    obtain ⟨⟨⟨hq, hcne⟩, hlast⟩, hfree⟩ := hwf
    have hcsne : cs ≠ [] := by
      intro hemp
      rw [hemp] at hcne
      exact absurd hcne (by decide)
    have hcs : cs = cs.dropLast ++ [q] := by
      have h0 := List.dropLast_concat_getLast hcsne
      rw [List.getLast?_eq_getLast cs hcsne] at hlast
      injection hlast with hlast2
      rw [hlast2] at h0
      exact h0.symm
    have harr : r.toList ++ S = q :: (cs.dropLast ++ q :: S) := by
      rw [heq]
      conv_lhs => rw [hcs]
      simp
    rw [harr, lexTokens]
    simp only [quote_not_white hq, quote_not_digit hq, quote_not_identStart hq, hq,
      Bool.false_eq_true, if_false, if_true]
    have hsplit : splitString q (cs.dropLast ++ q :: S) = some (cs.dropLast, S) :=
      splitString_append_delim q S hfree
    split
    · rename_i heq2
      rw [hsplit] at heq2
      exact absurd heq2 (by simp)
    · rename_i content2 rest2 heq2
      rw [hsplit] at heq2
      have hp1 : cs.dropLast = content2 := by
        injection heq2 with hpair
        exact congrArg Prod.fst hpair
      have hp2 : S = rest2 := by
        injection heq2 with hpair
        exact congrArg Prod.snd hpair
      subst hp1
      subst hp2
      have hmk : String.mk (q :: (cs.dropLast ++ [q])) = r := by
        rw [← hcs, ← heq]
        exact string_mk_toList r
      rw [hmk]
      have hpos : pos + cs.dropLast.length + 2 = pos + r.toList.length := by
        rw [heq]
        conv_rhs => rw [hcs]
        simp only [List.length_cons, List.length_append, List.length_nil]
        omega
      rw [hpos]

theorem lexTokens_op_one (c1 : Char) (sym : String) (S : List Char) (pos : Nat)
    (h1 : isWhitespaceChar c1 = false) (h2 : isDigitChar c1 = false)
    (h3 : isIdentStart c1 = false) (h4 : isQuoteChar c1 = false)
    (hsym : sym.toList = [c1])
    (hop : operatorSymbol c1 S.head? = some (sym, false)) :
    lexTokens (sym.toList ++ S) pos
      = (lexTokens S (pos + sym.toList.length)).map (fun ts => ⟨.Operator sym, pos⟩ :: ts) := by
  rw [hsym, List.singleton_append, lexTokens]
  simp only [h1, h2, h3, h4, Bool.false_eq_true, if_false, hop]
  rfl

theorem lexTokens_op_two (c1 c2 : Char) (sym : String) (S : List Char) (pos : Nat)
    (h1 : isWhitespaceChar c1 = false) (h2 : isDigitChar c1 = false)
    (h3 : isIdentStart c1 = false) (h4 : isQuoteChar c1 = false)
    (hsym : sym.toList = [c1, c2])
    (hop : operatorSymbol c1 (some c2) = some (sym, true)) :
    lexTokens (sym.toList ++ S) pos
      = (lexTokens S (pos + sym.toList.length)).map (fun ts => ⟨.Operator sym, pos⟩ :: ts) := by
  rw [hsym, show ([c1, c2] : List Char) ++ S = c1 :: c2 :: S from rfl, lexTokens]
  simp only [h1, h2, h3, h4, Bool.false_eq_true, if_false, List.head?_cons, hop]
  rfl

/-- Re-lexing an operator symbol yields an Operator token. -/
theorem lexTokens_operator (s : String) (S : List Char) (pos : Nat)
    (hwf : (twoCharSyms.contains s || oneCharSyms.contains s) = true)
    (hstop : stopsAfter (.Operator s) S = true) :
    lexTokens (s.toList ++ S) pos
      = (lexTokens S (pos + s.toList.length)).map (fun ts => ⟨.Operator s, pos⟩ :: ts) := by
  simp only [twoCharSyms, oneCharSyms, List.contains_cons, List.contains_nil,
    Bool.or_eq_true, beq_iff_eq] at hwf
  rcases hwf with h2c | h1c
  · rcases h2c with rfl | rfl | rfl | rfl | rfl | rfl | hfalse
    all_goals first
      | exact absurd hfalse (by decide)
      | exact lexTokens_op_two '=' '=' "==" S pos (by decide) (by decide) (by decide)
          (by decide) rfl rfl
      | exact lexTokens_op_two '!' '=' "!=" S pos (by decide) (by decide) (by decide)
          (by decide) rfl rfl
      | exact lexTokens_op_two '<' '=' "<=" S pos (by decide) (by decide) (by decide)
          (by decide) rfl rfl
      | exact lexTokens_op_two '>' '=' ">=" S pos (by decide) (by decide) (by decide)
          (by decide) rfl rfl
      | exact lexTokens_op_two '&' '&' "&&" S pos (by decide) (by decide) (by decide)
          (by decide) rfl rfl
      | exact lexTokens_op_two '|' '|' "||" S pos (by decide) (by decide) (by decide)
          (by decide) rfl rfl
  · rcases h1c with rfl | rfl | rfl | rfl | rfl | rfl | rfl | rfl | rfl | rfl | rfl | rfl | rfl
      | rfl | rfl | rfl | rfl | rfl | hfalse
    all_goals first
      | exact absurd hfalse (by decide)
      | exact lexTokens_op_one '+' "+" S pos (by decide) (by decide) (by decide)
          (by decide) rfl rfl
      | exact lexTokens_op_one '-' "-" S pos (by decide) (by decide) (by decide)
          (by decide) rfl rfl
      | exact lexTokens_op_one '*' "*" S pos (by decide) (by decide) (by decide)
          (by decide) rfl rfl
      | exact lexTokens_op_one '/' "/" S pos (by decide) (by decide) (by decide)
          (by decide) rfl rfl
      | exact lexTokens_op_one '%' "%" S pos (by decide) (by decide) (by decide)
          (by decide) rfl rfl
      | exact lexTokens_op_one '.' "." S pos (by decide) (by decide) (by decide)
          (by decide) rfl rfl
      | exact lexTokens_op_one '[' "[" S pos (by decide) (by decide) (by decide)
          (by decide) rfl rfl
      | exact lexTokens_op_one ']' "]" S pos (by decide) (by decide) (by decide)
          (by decide) rfl rfl
      | exact lexTokens_op_one '(' "(" S pos (by decide) (by decide) (by decide)
          (by decide) rfl rfl
      | exact lexTokens_op_one ')' ")" S pos (by decide) (by decide) (by decide)
          (by decide) rfl rfl
      | exact lexTokens_op_one ',' "," S pos (by decide) (by decide) (by decide)
          (by decide) rfl rfl
      | exact lexTokens_op_one '\x7b' "\x7b" S pos (by decide) (by decide) (by decide)
          (by decide) rfl rfl
      | exact lexTokens_op_one '\x7d' "\x7d" S pos (by decide) (by decide) (by decide)
          (by decide) rfl rfl
      | exact lexTokens_op_one ':' ":" S pos (by decide) (by decide) (by decide)
          (by decide) rfl rfl
      | (refine lexTokens_op_one '<' "<" S pos (by decide) (by decide) (by decide)
          (by decide) rfl ?_
         cases S with
         | nil => rfl
         | cons d S2 =>
           have hd : ¬(d = '=') := by
             intro rfl0
             subst rfl0
             have hx : stopsAfter (.Operator "<") ('=' :: S2) = false := rfl
             rw [hx] at hstop
             exact absurd hstop (by decide)
           show operatorSymbol '<' (some d) = some ("<", false)
           unfold operatorSymbol
           rw [if_neg (by decide), if_neg (by decide), if_pos rfl, if_neg (by simp [hd])])
      | (refine lexTokens_op_one '>' ">" S pos (by decide) (by decide) (by decide)
          (by decide) rfl ?_
         cases S with
         | nil => rfl
         | cons d S2 =>
           have hd : ¬(d = '=') := by
             intro rfl0
             subst rfl0
             have hx : stopsAfter (.Operator ">") ('=' :: S2) = false := rfl
             rw [hx] at hstop
             exact absurd hstop (by decide)
           show operatorSymbol '>' (some d) = some (">", false)
           unfold operatorSymbol
           rw [if_neg (by decide), if_neg (by decide), if_neg (by decide), if_pos rfl,
             if_neg (by simp [hd])])
      | (refine lexTokens_op_one '!' "!" S pos (by decide) (by decide) (by decide)
          (by decide) rfl ?_
         cases S with
         | nil => rfl
         | cons d S2 =>
           have hd : ¬(d = '=') := by
             intro rfl0
             subst rfl0
             have hx : stopsAfter (.Operator "!") ('=' :: S2) = false := rfl
             rw [hx] at hstop
             exact absurd hstop (by decide)
           show operatorSymbol '!' (some d) = some ("!", false)
           unfold operatorSymbol
           rw [if_neg (by decide), if_pos rfl, if_neg (by simp [hd])])
      | (refine lexTokens_op_one '|' "|" S pos (by decide) (by decide) (by decide)
          (by decide) rfl ?_
         cases S with
         | nil => rfl
         | cons d S2 =>
           have hd : ¬(d = '|') := by
             intro rfl0
             subst rfl0
             have hx : stopsAfter (.Operator "|") ('|' :: S2) = false := rfl
             rw [hx] at hstop
             exact absurd hstop (by decide)
           show operatorSymbol '|' (some d) = some ("|", false)
           unfold operatorSymbol
           rw [if_neg (by decide), if_neg (by decide), if_neg (by decide), if_neg (by decide),
             if_neg (by decide), if_pos rfl, if_neg (by simp [hd])])

/-- Dispatch of the per-kind re-lexing lemmas: reading a well-formed token text
followed by a stopping suffix produces exactly that token and continues. -/
theorem lexTokens_token_cons (k : TokenKind) (S : List Char) (pos : Nat)
    (hwf : wfKind k = true) (hstop : stopsAfter k S = true) :
    lexTokens ((tokenText k).toList ++ S) pos
      = (lexTokens S (pos + (tokenText k).toList.length)).map (fun ts => ⟨k, pos⟩ :: ts) := by
  cases k with
  | Number t => exact lexTokens_number t S pos hwf hstop
  | StringLit r => exact lexTokens_stringlit r S pos hwf
  | Identifier n =>
    simp only [wfKind, Bool.and_eq_true, Bool.not_eq_true'] at hwf
    exact lexTokens_identifier n S pos hwf.1 hwf.2 hstop
  | Keyword w => exact lexTokens_keyword w S pos hwf hstop
  | Operator s => exact lexTokens_operator s S pos hwf hstop

/-- Lexing an interleaving of well-formed, mutually stopping token texts with
whitespace gaps yields exactly those tokens. -/
theorem lex_renderK (ks : List TokenKind) :
    ∀ (ws : List (List Char)) (pos : Nat),
    ws.length = ks.length + 1 →
    (ws.all (fun w => w.all isWhitespaceChar)) = true →
    (ks.all wfKind) = true →
    seqStops ks ws = true →
    lexTokens (renderK ks ws) pos = .ok (tokensFromRender ks ws pos) := by
  induction ks with
  | nil =>
    intro ws pos hlen hwhite _ _
    obtain ⟨w, rfl⟩ : ∃ w, ws = [w] := by
      cases ws with
      | nil => simp at hlen
      | cons w ws2 =>
        cases ws2 with
        | nil => exact ⟨w, rfl⟩
        | cons a b => simp at hlen
    have hww : w.all isWhitespaceChar = true := by simpa using hwhite
    show lexTokens w pos = .ok []
    calc lexTokens w pos = lexTokens (w ++ []) pos := by rw [List.append_nil]
      _ = lexTokens [] (pos + w.length) := lexTokens_white_append hww [] pos
      _ = .ok [] := lexTokens_nil _
  | cons k ks ih =>
    intro ws pos hlen hwhite hwf hstops
    obtain ⟨w, ws2, rfl⟩ : ∃ w ws2, ws = w :: ws2 := by
      cases ws with
      | nil => simp at hlen
      | cons a b => exact ⟨a, b, rfl⟩
    simp only [List.all_cons, Bool.and_eq_true] at hwhite hwf
    simp only [seqStops, Bool.and_eq_true] at hstops
    rw [show renderK (k :: ks) (w :: ws2) = w ++ ((tokenText k).toList ++ renderK ks ws2)
      from rfl]
    rw [lexTokens_white_append hwhite.1]
    rw [lexTokens_token_cons k (renderK ks ws2) (pos + w.length) hwf.1 hstops.1]
    rw [ih ws2 (pos + w.length + (tokenText k).toList.length) (by simpa using hlen)
      (by simpa using hwhite.2) hwf.2 hstops.2]
    rfl

theorem toList_mk (l : List Char) : (String.mk l).toList = l := rfl

theorem takeWhile_eq_self_of_all {p : Char → Bool} : ∀ {l : List Char}, l.all p = true →
    l.takeWhile p = l := by
  intro l
  induction l with
  | nil => intro _; rfl
  | cons a l ih =>
    intro h
    simp only [List.all_cons, Bool.and_eq_true] at h
    rw [List.takeWhile_cons_of_pos h.1, ih h.2]

theorem dropWhile_eq_nil_of_all {p : Char → Bool} : ∀ {l : List Char}, l.all p = true →
    l.dropWhile p = [] := by
  intro l
  induction l with
  | nil => intro _; rfl
  | cons a l ih =>
    intro h
    simp only [List.all_cons, Bool.and_eq_true] at h
    rw [List.dropWhile_cons_of_pos h.1, ih h.2]

theorem head?_dropWhile {p : Char → Bool} : ∀ (l : List Char) (d : Char),
    (l.dropWhile p).head? = some d → p d = false := by
  intro l
  induction l with
  | nil => intro d h; simp at h
  | cons a l ih =>
    intro d h
    rw [List.dropWhile_cons] at h
    split at h
    · exact ih d h
    · rename_i hpa
      simp only [List.head?_cons, Option.some.injEq] at h
      subst h
      simpa using hpa

theorem any_dot_false_of_digits {l : List Char} (h : l.all isDigitChar = true) :
    (l.any fun c => c = '.') = false := by
  rcases Bool.eq_false_or_eq_true (l.any fun c => c = '.') with ha | ha
  · exfalso
    simp only [List.any_eq_true, decide_eq_true_eq] at ha
    obtain ⟨x, hx, rfl⟩ := ha
    have hd := (List.all_eq_true.mp h) _ hx
    exact absurd hd (by decide)
  · exact ha

theorem except_map_ok {α β γ : Type} {f : α → β} {e : Except γ α} {b : β}
    (h : e.map f = .ok b) : ∃ a, e = .ok a ∧ b = f a := by
  cases e with
  | error err => exact absurd h (by simp [Except.map])
  | ok a =>
    refine ⟨a, rfl, ?_⟩
    have h2 : Except.ok (ε := γ) (f a) = .ok b := by simpa [Except.map] using h
    injection h2 with h3
    exact h3.symm

theorem renderK_cons_gap (ks : List TokenKind) (c : Char) (w : List Char)
    (ws : List (List Char)) :
    renderK ks ((c :: w) :: ws) = c :: renderK ks (w :: ws) := by
  cases ks <;> rfl

theorem seqStops_gap_irrel (ks : List TokenKind) (w w2 : List Char) (ws : List (List Char)) :
    seqStops ks (w :: ws) = seqStops ks (w2 :: ws) := by
  cases ks <;> rfl

theorem lexNumberText_decomp (c : Char) (cs : List Char) :
    (lexNumberText c cs).1 ++ (lexNumberText c cs).2 = c :: cs := by
  unfold lexNumberText
  split
  · rename_i r2 heq
    split
    · rw [List.cons_append, List.takeWhile_append_dropWhile]
    · simp only [List.cons_append, List.append_assoc]
      rw [List.takeWhile_append_dropWhile isDigitChar r2, ← heq,
        List.takeWhile_append_dropWhile isDigitChar cs]
  · rw [List.cons_append, List.takeWhile_append_dropWhile]

theorem lexNumberText_valid (c : Char) (cs : List Char) (hc : isDigitChar c = true) :
    validNumberLiteral (String.mk (lexNumberText c cs).1) = true := by
  have hall : (c :: cs.takeWhile isDigitChar).all isDigitChar = true := by
    simp only [List.all_cons, Bool.and_eq_true]
    exact ⟨hc, all_takeWhile _ _⟩
  unfold lexNumberText
  split
  · rename_i r2 heq
    split
    · unfold validNumberLiteral
      rw [toList_mk, takeWhile_eq_self_of_all hall, dropWhile_eq_nil_of_all hall]
      simp
    · unfold validNumberLiteral
      rw [toList_mk]
      have htk : (c :: cs.takeWhile isDigitChar ++ '.' :: r2.takeWhile isDigitChar).takeWhile
          isDigitChar = c :: cs.takeWhile isDigitChar := by
        rw [show (c :: cs.takeWhile isDigitChar ++ '.' :: r2.takeWhile isDigitChar)
            = (c :: cs.takeWhile isDigitChar) ++ '.' :: r2.takeWhile isDigitChar from by simp,
          List.takeWhile_append_of_pos (List.all_eq_true.mp hall),
          List.takeWhile_cons_of_neg (by decide), List.append_nil]
      have hdr : (c :: cs.takeWhile isDigitChar ++ '.' :: r2.takeWhile isDigitChar).dropWhile
          isDigitChar = '.' :: r2.takeWhile isDigitChar := by
        rw [show (c :: cs.takeWhile isDigitChar ++ '.' :: r2.takeWhile isDigitChar)
            = (c :: cs.takeWhile isDigitChar) ++ '.' :: r2.takeWhile isDigitChar from by simp,
          List.dropWhile_append_of_pos (List.all_eq_true.mp hall),
          List.dropWhile_cons_of_neg (by decide)]
      rw [htk, hdr]
      rename_i heqf
      rcases htw : r2.takeWhile isDigitChar with _ | ⟨f, fs⟩
      · exact absurd htw heqf
      · have hfall : (f :: fs).all isDigitChar = true := by
          rw [← htw]
          exact all_takeWhile _ _
        simp [hfall]
  · unfold validNumberLiteral
    rw [toList_mk, takeWhile_eq_self_of_all hall, dropWhile_eq_nil_of_all hall]
    simp

theorem lexNumberText_stops (c : Char) (cs : List Char) (hc : isDigitChar c = true) :
    stopsAfter (.Number (String.mk (lexNumberText c cs).1)) (lexNumberText c cs).2 = true := by
  have hall : (c :: cs.takeWhile isDigitChar).all isDigitChar = true := by
    simp only [List.all_cons, Bool.and_eq_true]
    exact ⟨hc, all_takeWhile _ _⟩
  unfold lexNumberText
  split
  · rename_i r2 heq
    split
    · rename_i heqf
      unfold stopsAfter stops2
      have hnd := any_dot_false_of_digits hall
      have hopt : optIsDigit r2.head? = false := by
        cases r2 with
        | nil => rfl
        | cons x xs =>
          rcases Bool.eq_false_or_eq_true (isDigitChar x) with hx | hx
          · rw [List.takeWhile_cons_of_pos hx] at heqf
            exact absurd heqf (by simp)
          · simp [optIsDigit, hx]
      simp only [heq, List.head?_cons, List.drop_one, List.tail_cons, toList_mk, hnd, hopt]
      decide
    · rename_i heqf
      unfold stopsAfter stops2
      have hnd : ((String.mk (c :: cs.takeWhile isDigitChar ++ '.' :: r2.takeWhile
          isDigitChar)).toList.any fun x => x = '.') = true := by
        rw [toList_mk]
        simp
      rcases hdw : r2.dropWhile isDigitChar with _ | ⟨d, rest2⟩
      · rfl
      · have hd : isDigitChar d = false := by
          apply head?_dropWhile r2 d
          rw [hdw]
          rfl
        simp only [List.head?_cons, hnd, hd]
        rfl
  · rename_i hnotdot
    unfold stopsAfter stops2
    rcases hdw : cs.dropWhile isDigitChar with _ | ⟨d, rest2⟩
    · rfl
    · have hd : isDigitChar d = false := by
        apply head?_dropWhile cs d
        rw [hdw]
        rfl
      have hddot : ¬(d = '.') := by
        intro rfl0
        subst rfl0
        exact hnotdot rest2 hdw
      simp only [List.head?_cons, hd, toList_mk]
      simp [hddot]

theorem stops_op_safe (sym : String) (S : List Char)
    (h1 : ¬(sym = "<")) (h2 : ¬(sym = ">")) (h3 : ¬(sym = "!")) (h4 : ¬(sym = "|")) :
    stopsAfter (.Operator sym) S = true := by
  unfold stopsAfter stops2
  cases S with
  | nil => rfl
  | cons d S2 => simp [h1, h2, h3, h4]

theorem opDecomp_two (sym : String) (c1 c2 : Char) (cs2 : List Char)
    (hsym : sym.toList = [c1, c2])
    (hnext : cs2.head? = some c2)
    (hs1 : ¬(sym = "<")) (hs2 : ¬(sym = ">")) (hs3 : ¬(sym = "!")) (hs4 : ¬(sym = "|"))
    (hwf : wfKind (.Operator sym) = true) :
    sym.toList ++ (if true then cs2.tail else cs2) = c1 :: cs2
    ∧ wfKind (.Operator sym) = true
    ∧ stopsAfter (.Operator sym) (if true then cs2.tail else cs2) = true
    ∧ sym.toList.length = (if true then 2 else 1) := by
  cases cs2 with
  | nil => exact absurd hnext (by simp)
  | cons d r =>
    simp only [List.head?_cons, Option.some.injEq] at hnext
    subst hnext
    refine ⟨?_, hwf, stops_op_safe _ _ hs1 hs2 hs3 hs4, ?_⟩
    · rw [hsym]
      rfl
    · rw [hsym]
      rfl

theorem opDecomp_one_safe (sym : String) (c1 : Char) (cs2 : List Char)
    (hsym : sym.toList = [c1])
    (hs1 : ¬(sym = "<")) (hs2 : ¬(sym = ">")) (hs3 : ¬(sym = "!")) (hs4 : ¬(sym = "|"))
    (hwf : wfKind (.Operator sym) = true) :
    sym.toList ++ (if false then cs2.tail else cs2) = c1 :: cs2
    ∧ wfKind (.Operator sym) = true
    ∧ stopsAfter (.Operator sym) (if false then cs2.tail else cs2) = true
    ∧ sym.toList.length = (if false then 2 else 1) :=
  ⟨by rw [hsym]; rfl, hwf, stops_op_safe _ _ hs1 hs2 hs3 hs4, by rw [hsym]; rfl⟩

set_option maxHeartbeats 1000000 in
theorem operatorSymbol_decomp (c : Char) (cs2 : List Char) (sym : String) (isTwo : Bool)
    (h : operatorSymbol c cs2.head? = some (sym, isTwo)) :
    sym.toList ++ (if isTwo then cs2.tail else cs2) = c :: cs2
    ∧ wfKind (.Operator sym) = true
    ∧ stopsAfter (.Operator sym) (if isTwo then cs2.tail else cs2) = true
    ∧ sym.toList.length = (if isTwo then 2 else 1) := by
  by_cases hmem : c ∈ ['=', '!', '<', '>', '&', '|', '+', '-', '*', '/', '%', '.', '[', ']',
      '(', ')', ',', '\x7b', '\x7d', ':']
  case neg =>
    exfalso
    simp only [List.mem_cons, List.not_mem_nil, or_false, not_or] at hmem
    obtain ⟨e1, e2, e3, e4, e5, e6, e7, e8, e9, e10, e11, e12, e13, e14, e15, e16, e17, e18,
      e19, e20⟩ := hmem
    unfold operatorSymbol at h
    rw [if_neg e1, if_neg e2, if_neg e3, if_neg e4, if_neg e5, if_neg e6, if_neg e7, if_neg e8,
      if_neg e9, if_neg e10, if_neg e11, if_neg e12, if_neg e13, if_neg e14, if_neg e15,
      if_neg e16, if_neg e17, if_neg e18, if_neg e19, if_neg e20] at h
    exact absurd h (by simp)
  case pos =>
    fin_cases hmem
    -- c = '='
    · unfold operatorSymbol at h
      rw [if_pos rfl] at h
      split at h
      · rename_i hnext
        simp only [Option.some.injEq, Prod.mk.injEq] at h
        obtain ⟨rfl, rfl⟩ := h
        exact opDecomp_two "==" '=' '=' cs2 rfl hnext (by decide) (by decide) (by decide)
          (by decide) (by decide)
      · exact absurd h (by simp)
    -- c = '!'
    · unfold operatorSymbol at h
      rw [if_neg (by decide), if_pos rfl] at h
      split at h
      · rename_i hnext
        simp only [Option.some.injEq, Prod.mk.injEq] at h
        obtain ⟨rfl, rfl⟩ := h
        exact opDecomp_two "!=" '!' '=' cs2 rfl hnext (by decide) (by decide) (by decide)
          (by decide) (by decide)
      · rename_i hnext
        simp only [Option.some.injEq, Prod.mk.injEq] at h
        obtain ⟨rfl, rfl⟩ := h
        refine ⟨rfl, by decide, ?_, by decide⟩
        cases cs2 with
        | nil => rfl
        | cons d r =>
          have hd : ¬(d = '=') := by
            intro rfl0
            exact hnext (by rw [rfl0]; rfl)
          unfold stopsAfter stops2
          simp [hd]
    -- c = '<'
    · unfold operatorSymbol at h
      rw [if_neg (by decide), if_neg (by decide), if_pos rfl] at h
      split at h
      · rename_i hnext
        simp only [Option.some.injEq, Prod.mk.injEq] at h
        obtain ⟨rfl, rfl⟩ := h
        exact opDecomp_two "<=" '<' '=' cs2 rfl hnext (by decide) (by decide) (by decide)
          (by decide) (by decide)
      · rename_i hnext
        simp only [Option.some.injEq, Prod.mk.injEq] at h
        obtain ⟨rfl, rfl⟩ := h
        refine ⟨rfl, by decide, ?_, by decide⟩
        cases cs2 with
        | nil => rfl
        | cons d r =>
          have hd : ¬(d = '=') := by
            intro rfl0
            exact hnext (by rw [rfl0]; rfl)
          unfold stopsAfter stops2
          simp [hd]
    -- c = '>'
    · unfold operatorSymbol at h
      rw [if_neg (by decide), if_neg (by decide), if_neg (by decide), if_pos rfl] at h
      split at h
      · rename_i hnext
        simp only [Option.some.injEq, Prod.mk.injEq] at h
        obtain ⟨rfl, rfl⟩ := h
        exact opDecomp_two ">=" '>' '=' cs2 rfl hnext (by decide) (by decide) (by decide)
          (by decide) (by decide)
      · rename_i hnext
        simp only [Option.some.injEq, Prod.mk.injEq] at h
        obtain ⟨rfl, rfl⟩ := h
        refine ⟨rfl, by decide, ?_, by decide⟩
        cases cs2 with
        | nil => rfl
        | cons d r =>
          have hd : ¬(d = '=') := by
            intro rfl0
            exact hnext (by rw [rfl0]; rfl)
          unfold stopsAfter stops2
          simp [hd]
    -- c = '&'
    · unfold operatorSymbol at h
      rw [if_neg (by decide), if_neg (by decide), if_neg (by decide), if_neg (by decide),
        if_pos rfl] at h
      split at h
      · rename_i hnext
        simp only [Option.some.injEq, Prod.mk.injEq] at h
        obtain ⟨rfl, rfl⟩ := h
        exact opDecomp_two "&&" '&' '&' cs2 rfl hnext (by decide) (by decide) (by decide)
          (by decide) (by decide)
      · exact absurd h (by simp)
    -- c = '|'
    · unfold operatorSymbol at h
      rw [if_neg (by decide), if_neg (by decide), if_neg (by decide), if_neg (by decide),
        if_neg (by decide), if_pos rfl] at h
      split at h
      · rename_i hnext
        simp only [Option.some.injEq, Prod.mk.injEq] at h
        obtain ⟨rfl, rfl⟩ := h
        exact opDecomp_two "||" '|' '|' cs2 rfl hnext (by decide) (by decide) (by decide)
          (by decide) (by decide)
      · rename_i hnext
        simp only [Option.some.injEq, Prod.mk.injEq] at h
        obtain ⟨rfl, rfl⟩ := h
        refine ⟨rfl, by decide, ?_, by decide⟩
        cases cs2 with
        | nil => rfl
        | cons d r =>
          have hd : ¬(d = '|') := by
            intro rfl0
            exact hnext (by rw [rfl0]; rfl)
          unfold stopsAfter stops2
          simp [hd]
    -- c = '+'
    · unfold operatorSymbol at h
      rw [if_neg (by decide), if_neg (by decide), if_neg (by decide), if_neg (by decide),
        if_neg (by decide), if_neg (by decide), if_pos rfl] at h
      simp only [Option.some.injEq, Prod.mk.injEq] at h
      obtain ⟨rfl, rfl⟩ := h
      exact opDecomp_one_safe "+" '+' cs2 rfl (by decide) (by decide) (by decide) (by decide)
        (by decide)
    -- c = '-'
    · unfold operatorSymbol at h
      rw [if_neg (by decide), if_neg (by decide), if_neg (by decide), if_neg (by decide),
        if_neg (by decide), if_neg (by decide), if_neg (by decide), if_pos rfl] at h
      simp only [Option.some.injEq, Prod.mk.injEq] at h
      obtain ⟨rfl, rfl⟩ := h
      exact opDecomp_one_safe "-" '-' cs2 rfl (by decide) (by decide) (by decide) (by decide)
        (by decide)
    -- c = '*'
    · unfold operatorSymbol at h
      rw [if_neg (by decide), if_neg (by decide), if_neg (by decide), if_neg (by decide),
        if_neg (by decide), if_neg (by decide), if_neg (by decide), if_neg (by decide),
        if_pos rfl] at h
      simp only [Option.some.injEq, Prod.mk.injEq] at h
      obtain ⟨rfl, rfl⟩ := h
      exact opDecomp_one_safe "*" '*' cs2 rfl (by decide) (by decide) (by decide) (by decide)
        (by decide)
    -- c = '/'
    · unfold operatorSymbol at h
      rw [if_neg (by decide), if_neg (by decide), if_neg (by decide), if_neg (by decide),
        if_neg (by decide), if_neg (by decide), if_neg (by decide), if_neg (by decide),
        if_neg (by decide), if_pos rfl] at h
      simp only [Option.some.injEq, Prod.mk.injEq] at h
      obtain ⟨rfl, rfl⟩ := h
      exact opDecomp_one_safe "/" '/' cs2 rfl (by decide) (by decide) (by decide) (by decide)
        (by decide)
    -- c = '%'
    · unfold operatorSymbol at h
      rw [if_neg (by decide), if_neg (by decide), if_neg (by decide), if_neg (by decide),
        if_neg (by decide), if_neg (by decide), if_neg (by decide), if_neg (by decide),
        if_neg (by decide), if_neg (by decide), if_pos rfl] at h
      simp only [Option.some.injEq, Prod.mk.injEq] at h
      obtain ⟨rfl, rfl⟩ := h
      exact opDecomp_one_safe "%" '%' cs2 rfl (by decide) (by decide) (by decide) (by decide)
        (by decide)
    -- c = '.'
    · unfold operatorSymbol at h
      rw [if_neg (by decide), if_neg (by decide), if_neg (by decide), if_neg (by decide),
        if_neg (by decide), if_neg (by decide), if_neg (by decide), if_neg (by decide),
        if_neg (by decide), if_neg (by decide), if_neg (by decide), if_pos rfl] at h
      simp only [Option.some.injEq, Prod.mk.injEq] at h
      obtain ⟨rfl, rfl⟩ := h
      exact opDecomp_one_safe "." '.' cs2 rfl (by decide) (by decide) (by decide) (by decide)
        (by decide)
    -- c = '['
    · unfold operatorSymbol at h
      rw [if_neg (by decide), if_neg (by decide), if_neg (by decide), if_neg (by decide),
        if_neg (by decide), if_neg (by decide), if_neg (by decide), if_neg (by decide),
        if_neg (by decide), if_neg (by decide), if_neg (by decide), if_neg (by decide),
        if_pos rfl] at h
      simp only [Option.some.injEq, Prod.mk.injEq] at h
      obtain ⟨rfl, rfl⟩ := h
      exact opDecomp_one_safe "[" '[' cs2 rfl (by decide) (by decide) (by decide) (by decide)
        (by decide)
    -- c = ']'
    · unfold operatorSymbol at h
      rw [if_neg (by decide), if_neg (by decide), if_neg (by decide), if_neg (by decide),
        if_neg (by decide), if_neg (by decide), if_neg (by decide), if_neg (by decide),
        if_neg (by decide), if_neg (by decide), if_neg (by decide), if_neg (by decide),
        if_neg (by decide), if_pos rfl] at h
      simp only [Option.some.injEq, Prod.mk.injEq] at h
      obtain ⟨rfl, rfl⟩ := h
      exact opDecomp_one_safe "]" ']' cs2 rfl (by decide) (by decide) (by decide) (by decide)
        (by decide)
    -- c = '('
    · unfold operatorSymbol at h
      rw [if_neg (by decide), if_neg (by decide), if_neg (by decide), if_neg (by decide),
        if_neg (by decide), if_neg (by decide), if_neg (by decide), if_neg (by decide),
        if_neg (by decide), if_neg (by decide), if_neg (by decide), if_neg (by decide),
        if_neg (by decide), if_neg (by decide), if_pos rfl] at h
      simp only [Option.some.injEq, Prod.mk.injEq] at h
      obtain ⟨rfl, rfl⟩ := h
      exact opDecomp_one_safe "(" '(' cs2 rfl (by decide) (by decide) (by decide) (by decide)
        (by decide)
    -- c = ')'
    · unfold operatorSymbol at h
      rw [if_neg (by decide), if_neg (by decide), if_neg (by decide), if_neg (by decide),
        if_neg (by decide), if_neg (by decide), if_neg (by decide), if_neg (by decide),
        if_neg (by decide), if_neg (by decide), if_neg (by decide), if_neg (by decide),
        if_neg (by decide), if_neg (by decide), if_neg (by decide), if_pos rfl] at h
      simp only [Option.some.injEq, Prod.mk.injEq] at h
      obtain ⟨rfl, rfl⟩ := h
      exact opDecomp_one_safe ")" ')' cs2 rfl (by decide) (by decide) (by decide) (by decide)
        (by decide)
    -- c = ','
    · unfold operatorSymbol at h
      rw [if_neg (by decide), if_neg (by decide), if_neg (by decide), if_neg (by decide),
        if_neg (by decide), if_neg (by decide), if_neg (by decide), if_neg (by decide),
        if_neg (by decide), if_neg (by decide), if_neg (by decide), if_neg (by decide),
        if_neg (by decide), if_neg (by decide), if_neg (by decide), if_neg (by decide),
        if_pos rfl] at h
      simp only [Option.some.injEq, Prod.mk.injEq] at h
      obtain ⟨rfl, rfl⟩ := h
      exact opDecomp_one_safe "," ',' cs2 rfl (by decide) (by decide) (by decide) (by decide)
        (by decide)
    -- c = left brace
    · unfold operatorSymbol at h
      rw [if_neg (by decide), if_neg (by decide), if_neg (by decide), if_neg (by decide),
        if_neg (by decide), if_neg (by decide), if_neg (by decide), if_neg (by decide),
        if_neg (by decide), if_neg (by decide), if_neg (by decide), if_neg (by decide),
        if_neg (by decide), if_neg (by decide), if_neg (by decide), if_neg (by decide),
        if_neg (by decide), if_pos rfl] at h
      simp only [Option.some.injEq, Prod.mk.injEq] at h
      obtain ⟨rfl, rfl⟩ := h
      exact opDecomp_one_safe "\x7b" '\x7b' cs2 rfl (by decide) (by decide) (by decide)
        (by decide) (by decide)
    -- c = right brace
    · unfold operatorSymbol at h
      rw [if_neg (by decide), if_neg (by decide), if_neg (by decide), if_neg (by decide),
        if_neg (by decide), if_neg (by decide), if_neg (by decide), if_neg (by decide),
        if_neg (by decide), if_neg (by decide), if_neg (by decide), if_neg (by decide),
        if_neg (by decide), if_neg (by decide), if_neg (by decide), if_neg (by decide),
        if_neg (by decide), if_neg (by decide), if_pos rfl] at h
      simp only [Option.some.injEq, Prod.mk.injEq] at h
      obtain ⟨rfl, rfl⟩ := h
      exact opDecomp_one_safe "\x7d" '\x7d' cs2 rfl (by decide) (by decide) (by decide)
        (by decide) (by decide)
    -- c = ':'
    · unfold operatorSymbol at h
      rw [if_neg (by decide), if_neg (by decide), if_neg (by decide), if_neg (by decide),
        if_neg (by decide), if_neg (by decide), if_neg (by decide), if_neg (by decide),
        if_neg (by decide), if_neg (by decide), if_neg (by decide), if_neg (by decide),
        if_neg (by decide), if_neg (by decide), if_neg (by decide), if_neg (by decide),
        if_neg (by decide), if_neg (by decide), if_neg (by decide), if_pos rfl] at h
      simp only [Option.some.injEq, Prod.mk.injEq] at h
      obtain ⟨rfl, rfl⟩ := h
      exact opDecomp_one_safe ":" ':' cs2 rfl (by decide) (by decide) (by decide) (by decide)
        (by decide)

theorem stops_stringlit (r : String) (S : List Char) : stopsAfter (.StringLit r) S = true := by
  cases S <;> rfl

/-- Decomposition: a successful lexing splits the input into whitespace gaps
and well-formed token texts, each stopping against what follows it. -/
theorem lex_decomp : ∀ (n : Nat) (cs : List Char), cs.length ≤ n →
    ∀ (pos : Nat) (toks : List Token), lexTokens cs pos = .ok toks →
    ∃ ws, ws.length = toks.length + 1
      ∧ (ws.all (fun w => w.all isWhitespaceChar)) = true
      ∧ ((toks.map Token.kind).all wfKind) = true
      ∧ seqStops (toks.map Token.kind) ws = true
      ∧ cs = renderK (toks.map Token.kind) ws := by
  intro n
  induction n with
  | zero =>
    intro cs hlen pos toks h
    have hnil : cs = [] := List.eq_nil_of_length_eq_zero (Nat.le_zero.mp hlen)
    subst hnil
    rw [lexTokens_nil] at h
    injection h with h2
    subst h2
    exact ⟨[[]], rfl, rfl, rfl, rfl, rfl⟩
  | succ n ih =>
    intro cs hlen pos toks h
    cases cs with
    | nil =>
      rw [lexTokens_nil] at h
      injection h with h2
      subst h2
      exact ⟨[[]], rfl, rfl, rfl, rfl, rfl⟩
    | cons c cs2 =>
      have hlen2 : cs2.length ≤ n := by
        simp only [List.length_cons] at hlen
        omega
      rw [lexTokens] at h
      by_cases hw : isWhitespaceChar c = true
      · rw [if_pos hw] at h
        obtain ⟨ws, h1, h2, h3, h4, h5⟩ := ih cs2 hlen2 (pos + 1) toks h
        obtain ⟨w0, wsrest, rfl⟩ : ∃ w0 wsrest, ws = w0 :: wsrest := by
          cases ws with
          | nil => simp at h1
          | cons a b => exact ⟨a, b, rfl⟩
        refine ⟨(c :: w0) :: wsrest, by simpa using h1, ?_, h3, ?_, ?_⟩
        · simp only [List.all_cons, Bool.and_eq_true] at h2 ⊢
          exact ⟨⟨hw, h2.1⟩, h2.2⟩
        · rw [seqStops_gap_irrel _ (c :: w0) w0]
          exact h4
        · rw [renderK_cons_gap]
          exact congrArg (List.cons c) h5
      · rw [if_neg hw] at h
        by_cases hd : isDigitChar c = true
        · rw [if_pos hd] at h
          obtain ⟨ts2, hlex2, rfl⟩ := except_map_ok h
          have hlen3 : (lexNumberText c cs2).2.length ≤ n := by
            have := lexNumberText_snd_le c cs2
            omega
          obtain ⟨ws, h1, h2, h3, h4, h5⟩ := ih _ hlen3 _ _ hlex2
          refine ⟨[] :: ws, by simpa using h1, by simpa using h2, ?_, ?_, ?_⟩
          · simp only [List.map_cons, List.all_cons, Bool.and_eq_true]
            exact ⟨lexNumberText_valid c cs2 hd, h3⟩
          · simp only [List.map_cons, seqStops, Bool.and_eq_true]
            refine ⟨?_, h4⟩
            rw [← h5]
            exact lexNumberText_stops c cs2 hd
          · simp only [List.map_cons]
            have hr : renderK (TokenKind.Number (String.mk (lexNumberText c cs2).1)
                :: ts2.map Token.kind) ([] :: ws)
                = (lexNumberText c cs2).1 ++ renderK (ts2.map Token.kind) ws := rfl
            rw [hr, ← h5]
            exact (lexNumberText_decomp c cs2).symm
        · rw [if_neg hd] at h
          by_cases hi : isIdentStart c = true
          · rw [if_pos hi] at h
            obtain ⟨ts2, hlex2, rfl⟩ := except_map_ok h
            have hlen3 : (cs2.dropWhile isIdentCont).length ≤ n := by
              have := length_dropWhile_le isIdentCont cs2
              omega
            obtain ⟨ws, h1, h2, h3, h4, h5⟩ := ih _ hlen3 _ _ hlex2
            have hallt : (c :: cs2.takeWhile isIdentCont).all isIdentCont = true := by
              simp only [List.all_cons, Bool.and_eq_true]
              exact ⟨by simp [isIdentCont, hi], all_takeWhile _ _⟩
            have hshape : validIdentText (String.mk (c :: cs2.takeWhile isIdentCont)) = true := by
              unfold validIdentText
              rw [toList_mk]
              simp only [Bool.and_eq_true]
              exact ⟨hi, all_takeWhile _ _⟩
            have hheadstop : ∀ d, (cs2.dropWhile isIdentCont).head? = some d →
                isIdentCont d = false := head?_dropWhile cs2
            have hdecomp : c :: cs2
                = (c :: cs2.takeWhile isIdentCont) ++ cs2.dropWhile isIdentCont := by
              rw [List.cons_append, List.takeWhile_append_dropWhile]
            refine ⟨[] :: ws, by simpa using h1, by simpa using h2, ?_, ?_, ?_⟩
            · simp only [List.map_cons, List.all_cons, Bool.and_eq_true]
              refine ⟨?_, h3⟩
              split
              · rename_i hcond
                simp only [Bool.or_eq_true, decide_eq_true_eq] at hcond
                show keywordList.contains (String.mk (c :: cs2.takeWhile isIdentCont)) = true
                rcases hcond with (hkw | hkw) | hkw <;> rw [hkw] <;> decide
              · rename_i hcond
                simp only [Bool.or_eq_true, decide_eq_true_eq, not_or] at hcond
                show (validIdentText (String.mk (c :: cs2.takeWhile isIdentCont))
                  && !(keywordList.contains (String.mk (c :: cs2.takeWhile isIdentCont)))) = true
                simp only [Bool.and_eq_true, Bool.not_eq_true']
                refine ⟨hshape, ?_⟩
                simp [keywordList, hcond.1.1, hcond.1.2, hcond.2]
            · simp only [List.map_cons, seqStops, Bool.and_eq_true]
              refine ⟨?_, h4⟩
              rw [← h5]
              rcases hdwk : (cs2.dropWhile isIdentCont) with _ | ⟨d0, r0⟩
              · split <;> rfl
              · have hd0 : isIdentCont d0 = false := hheadstop d0 (by rw [hdwk]; rfl)
                split
                all_goals unfold stopsAfter stops2
                all_goals simp only [List.head?_cons, hd0]
                all_goals rfl
            · simp only [List.map_cons]
              have hr : ∀ k0 kr, renderK (k0 :: kr) ([] :: ws)
                  = (tokenText k0).toList ++ renderK kr ws := fun _ _ => rfl
              rw [hr, ← h5]
              split
              all_goals rw [toList_mk]
              all_goals exact hdecomp
          · rw [if_neg hi] at h
            by_cases hq : isQuoteChar c = true
            · rw [if_pos hq] at h
              split at h
              · exact absurd h (by simp)
              · rename_i content rest heqsp
                obtain ⟨ts2, hlex2, rfl⟩ := except_map_ok h
                obtain ⟨hcseq, hnotmem⟩ := splitString_some c heqsp
                have hlen3 : rest.length ≤ n := by
                  have : cs2.length = content.length + (rest.length + 1) := by
                    rw [hcseq]
                    simp
                  omega
                obtain ⟨ws, h1, h2, h3, h4, h5⟩ := ih _ hlen3 _ _ hlex2
                have hfree : content.all (fun x => !(x = c)) = true := by
                  rw [List.all_eq_true]
                  intro x hx
                  simp only [Bool.not_eq_true', decide_eq_false_iff_not]
                  intro rfl0
                  exact hnotmem (rfl0 ▸ hx)
                refine ⟨[] :: ws, by simpa using h1, by simpa using h2, ?_, ?_, ?_⟩
                · simp only [List.map_cons, List.all_cons, Bool.and_eq_true]
                  refine ⟨?_, h3⟩
                  show validStringToken (String.mk (c :: (content ++ [c]))) = true
                  simp only [validStringToken, toList_mk, Bool.and_eq_true, decide_eq_true_eq]
                  refine ⟨⟨⟨hq, by simp⟩, ?_⟩, ?_⟩
                  · rw [List.getLast?_concat]
                  · rw [List.dropLast_concat]
                    exact hfree
                · simp only [List.map_cons, seqStops, Bool.and_eq_true]
                  exact ⟨stops_stringlit _ _, h4⟩
                · simp only [List.map_cons]
                  have hr : ∀ k0 kr, renderK (k0 :: kr) ([] :: ws)
                      = (tokenText k0).toList ++ renderK kr ws := fun _ _ => rfl
                  rw [hr, ← h5]
                  show c :: cs2 = (c :: (content ++ [c])) ++ rest
                  rw [hcseq, List.cons_append, List.append_assoc]
                  rfl
            · rw [if_neg hq] at h
              split at h
              · rename_i sym isTwo heqop
                obtain ⟨ts2, hlex2, rfl⟩ := except_map_ok h
                obtain ⟨hdec, hwfo, hsto, hlo⟩ := operatorSymbol_decomp c cs2 sym isTwo heqop
                have hlen3 : (if isTwo then cs2.tail else cs2).length ≤ n := by
                  cases isTwo with
                  | false => simpa using hlen2
                  | true =>
                    have : cs2.tail.length ≤ cs2.length := by
                      cases cs2 <;> simp
                    simp only [if_true]
                    omega
                obtain ⟨ws, h1, h2, h3, h4, h5⟩ := ih _ hlen3 _ _ hlex2
                refine ⟨[] :: ws, by simpa using h1, by simpa using h2, ?_, ?_, ?_⟩
                · simp only [List.map_cons, List.all_cons, Bool.and_eq_true]
                  exact ⟨hwfo, h3⟩
                · simp only [List.map_cons, seqStops, Bool.and_eq_true]
                  refine ⟨?_, h4⟩
                  rw [← h5]
                  exact hsto
                · simp only [List.map_cons]
                  have hr : ∀ k0 kr, renderK (k0 :: kr) ([] :: ws)
                      = (tokenText k0).toList ++ renderK kr ws := fun _ _ => rfl
                  rw [hr, ← h5]
                  exact hdec.symm
              · exact absurd h (by simp)

theorem tokenText_head_nonwhite (k : TokenKind) (hwf : wfKind k = true) :
    ∃ c rest, (tokenText k).toList = c :: rest ∧ isWhitespaceChar c = false := by
  cases k with
  | Number t =>
    show ∃ c rest, t.toList = c :: rest ∧ isWhitespaceChar c = false
    have hv : validNumberLiteral t = true := hwf
    unfold validNumberLiteral at hv
    simp only [Bool.and_eq_true] at hv
    cases hL : t.toList with
    | nil =>
      exfalso
      rw [hL] at hv
      exact absurd hv.1 (by decide)
    | cons c r =>
      refine ⟨c, r, rfl, ?_⟩
      rw [hL] at hv
      rcases Bool.eq_false_or_eq_true (isDigitChar c) with hc | hc
      · exact digit_not_white hc
      · exfalso
        rw [List.takeWhile_cons_of_neg (by simp [hc])] at hv
        exact absurd hv.1 (by decide)
  | StringLit r =>
    show ∃ c rest, r.toList = c :: rest ∧ isWhitespaceChar c = false
    have hv : validStringToken r = true := hwf
    unfold validStringToken at hv
    split at hv
    · exact absurd hv (by decide)
    · rename_i q cs heq
      simp only [Bool.and_eq_true] at hv
      exact ⟨q, cs, heq, quote_not_white hv.1.1.1⟩
  | Identifier n =>
    show ∃ c rest, n.toList = c :: rest ∧ isWhitespaceChar c = false
    simp only [wfKind, Bool.and_eq_true] at hwf
    have hv := hwf.1
    unfold validIdentText at hv
    split at hv
    · exact absurd hv (by decide)
    · rename_i c cs heq
      simp only [Bool.and_eq_true] at hv
      exact ⟨c, cs, heq, identStart_not_white hv.1⟩
  | Keyword w =>
    have hv : keywordList.contains w = true := hwf
    simp only [keywordList, List.contains_cons, List.contains_nil, Bool.or_eq_true,
      beq_iff_eq] at hv
    rcases hv with rfl | rfl | rfl | hfalse
    · exact ⟨_, _, rfl, by decide⟩
    · exact ⟨_, _, rfl, by decide⟩
    · exact ⟨_, _, rfl, by decide⟩
    · exact absurd hfalse (by decide)
  | Operator s =>
    have hv : (twoCharSyms.contains s || oneCharSyms.contains s) = true := hwf
    simp only [twoCharSyms, oneCharSyms, List.contains_cons, List.contains_nil,
      Bool.or_eq_true, beq_iff_eq] at hv
    rcases hv with (rfl | rfl | rfl | rfl | rfl | rfl | hfalse)
      | (rfl | rfl | rfl | rfl | rfl | rfl | rfl | rfl | rfl | rfl | rfl | rfl | rfl | rfl
        | rfl | rfl | rfl | rfl | hfalse)
    all_goals first
      | exact absurd hfalse (by decide)
      | exact ⟨_, _, rfl, by decide⟩

theorem white_prefix_eq (c c2 : Char) (hc : isWhitespaceChar c = false)
    (hc2 : isWhitespaceChar c2 = false) :
    ∀ (w w2 X X2 : List Char), w.all isWhitespaceChar = true →
    w2.all isWhitespaceChar = true →
    w ++ c :: X = w2 ++ c2 :: X2 → w = w2 ∧ c = c2 ∧ X = X2 := by
  intro w
  induction w with
  | nil =>
    intro w2 X X2 _ hw2 heq
    cases w2 with
    | nil =>
      simp only [List.nil_append, List.cons.injEq] at heq
      exact ⟨rfl, heq.1, heq.2⟩
    | cons e w2tail =>
      exfalso
      simp only [List.nil_append, List.cons_append, List.cons.injEq] at heq
      simp only [List.all_cons, Bool.and_eq_true] at hw2
      rw [heq.1] at hc
      rw [hw2.1] at hc
      exact absurd hc (by decide)
  | cons d wtail ih =>
    intro w2 X X2 hw hw2 heq
    simp only [List.all_cons, Bool.and_eq_true] at hw
    cases w2 with
    | nil =>
      exfalso
      simp only [List.cons_append, List.nil_append, List.cons.injEq] at heq
      rw [← heq.1] at hc2
      rw [hw.1] at hc2
      exact absurd hc2 (by decide)
    | cons e w2tail =>
      simp only [List.cons_append, List.cons.injEq] at heq
      obtain ⟨hde, heq2⟩ := heq
      simp only [List.all_cons, Bool.and_eq_true] at hw2
      obtain ⟨hw2a, hw2b⟩ := hw2
      obtain ⟨ha, hb, hcx⟩ := ih w2tail X X2 hw.2 hw2b heq2
      subst hde
      exact ⟨by rw [ha], hb, hcx⟩

theorem renderK_gaps_unique : ∀ (ks : List TokenKind) (ws ws2 : List (List Char)),
    (ks.all wfKind) = true →
    ws.length = ks.length + 1 → ws2.length = ks.length + 1 →
    (ws.all (fun w => w.all isWhitespaceChar)) = true →
    (ws2.all (fun w => w.all isWhitespaceChar)) = true →
    renderK ks ws = renderK ks ws2 → ws = ws2 := by
  intro ks
  induction ks with
  | nil =>
    intro ws ws2 _ hl1 hl2 _ _ heq
    obtain ⟨w, rfl⟩ : ∃ w, ws = [w] := by
      cases ws with
      | nil => simp at hl1
      | cons a b =>
        cases b with
        | nil => exact ⟨a, rfl⟩
        | cons x y => simp at hl1
    obtain ⟨w2, rfl⟩ : ∃ w2, ws2 = [w2] := by
      cases ws2 with
      | nil => simp at hl2
      | cons a b =>
        cases b with
        | nil => exact ⟨a, rfl⟩
        | cons x y => simp at hl2
    rw [show renderK [] [w] = w from rfl, show renderK [] [w2] = w2 from rfl] at heq
    rw [heq]
  | cons k ks ih =>
    intro ws ws2 hwf hl1 hl2 hww hww2 heq
    simp only [List.all_cons, Bool.and_eq_true] at hwf
    obtain ⟨w, wsr, rfl⟩ : ∃ w wsr, ws = w :: wsr := by
      cases ws with
      | nil => simp at hl1
      | cons a b => exact ⟨a, b, rfl⟩
    obtain ⟨w2, ws2r, rfl⟩ : ∃ w2 ws2r, ws2 = w2 :: ws2r := by
      cases ws2 with
      | nil => simp at hl2
      | cons a b => exact ⟨a, b, rfl⟩
    simp only [List.all_cons, Bool.and_eq_true] at hww hww2
    obtain ⟨c, trest, htext, hcw⟩ := tokenText_head_nonwhite k hwf.1
    rw [show renderK (k :: ks) (w :: wsr)
        = w ++ ((tokenText k).toList ++ renderK ks wsr) from rfl,
      show renderK (k :: ks) (w2 :: ws2r)
        = w2 ++ ((tokenText k).toList ++ renderK ks ws2r) from rfl, htext,
      List.cons_append, List.cons_append] at heq
    obtain ⟨hweq, _, hXeq⟩ := white_prefix_eq c c hcw hcw w w2 _ _ hww.1 hww2.1 heq
    have hreq : renderK ks wsr = renderK ks ws2r := by
      have := List.append_cancel_left hXeq
      exact this
    subst hweq
    rw [ih wsr ws2r hwf.2 (by simpa using hl1) (by simpa using hl2) hww.2 hww2.2 hreq]

theorem stopsAfter_congr (k : TokenKind) (s s2 : List Char)
    (h1 : s.head? = s2.head?) (h2 : (s.drop 1).head? = (s2.drop 1).head?) :
    stopsAfter k s = stopsAfter k s2 := by
  unfold stopsAfter
  rw [h1, h2]

theorem stops2_snd_white (k : TokenKind) (c w : Char) (b : Option Char)
    (h : stops2 k (some c) b = true) (hw : isWhitespaceChar w = true) :
    stops2 k (some c) (some w) = true := by
  cases k with
  | Number t =>
    unfold stops2 at h ⊢
    simp only [Bool.and_eq_true, Bool.or_eq_true] at h ⊢
    refine ⟨h.1, Or.inr ?_⟩
    simp [optIsDigit, white_not_digit hw]
  | Identifier n => exact h
  | Keyword word => exact h
  | StringLit r => exact h
  | Operator s => exact h

theorem renderK_head_pad : ∀ (ks : List TokenKind) (ws extra : List (List Char)),
    (ks.all wfKind) = true →
    ws.length = ks.length + 1 → extra.length = ks.length + 1 →
    (extra.all (fun w => w.all isWhitespaceChar)) = true →
    (renderK ks (padGaps ws extra)).head? = (renderK ks ws).head?
    ∨ ∃ c, (renderK ks (padGaps ws extra)).head? = some c ∧ isWhitespaceChar c = true := by
  intro ks ws extra hwf hlen hexlen hexw
  cases ks with
  | nil =>
    obtain ⟨w, rfl⟩ : ∃ w, ws = [w] := by
      cases ws with
      | nil => simp at hlen
      | cons a b =>
        cases b with
        | nil => exact ⟨a, rfl⟩
        | cons x y => simp at hlen
    obtain ⟨e, rfl⟩ : ∃ e, extra = [e] := by
      cases extra with
      | nil => simp at hexlen
      | cons a b =>
        cases b with
        | nil => exact ⟨a, rfl⟩
        | cons x y => simp at hexlen
    simp only [List.all_cons, Bool.and_eq_true] at hexw
    rw [show padGaps [w] [e] = [w ++ e] from rfl, show renderK [] [w ++ e] = w ++ e from rfl,
      show renderK [] [w] = w from rfl]
    cases w with
    | nil =>
      cases e with
      | nil => exact Or.inl rfl
      | cons x xs =>
        refine Or.inr ⟨x, rfl, ?_⟩
        simp only [List.all_cons, Bool.and_eq_true] at hexw
        exact hexw.1.1
    | cons x xs => exact Or.inl rfl
  | cons k ks2 =>
    obtain ⟨w, wsr, rfl⟩ : ∃ w wsr, ws = w :: wsr := by
      cases ws with
      | nil => simp at hlen
      | cons a b => exact ⟨a, b, rfl⟩
    obtain ⟨e, exr, rfl⟩ : ∃ e exr, extra = e :: exr := by
      cases extra with
      | nil => simp at hexlen
      | cons a b => exact ⟨a, b, rfl⟩
    simp only [List.all_cons, Bool.and_eq_true] at hexw
    simp only [List.all_cons, Bool.and_eq_true] at hwf
    rw [show padGaps (w :: wsr) (e :: exr) = (w ++ e) :: padGaps wsr exr from rfl,
      show renderK (k :: ks2) ((w ++ e) :: padGaps wsr exr)
        = (w ++ e) ++ ((tokenText k).toList ++ renderK ks2 (padGaps wsr exr)) from rfl,
      show renderK (k :: ks2) (w :: wsr)
        = w ++ ((tokenText k).toList ++ renderK ks2 wsr) from rfl]
    cases w with
    | cons x xs => exact Or.inl rfl
    | nil =>
      cases e with
      | cons x xs =>
        refine Or.inr ⟨x, rfl, ?_⟩
        simp only [List.all_cons, Bool.and_eq_true] at hexw
        exact hexw.1.1
      | nil =>
        obtain ⟨c, trest, htext, _⟩ := tokenText_head_nonwhite k hwf.1
        rw [htext]
        exact Or.inl rfl

theorem stopsAfter_pad (k : TokenKind) (ks : List TokenKind) (ws extra : List (List Char))
    (hwf : (ks.all wfKind) = true)
    (hlen : ws.length = ks.length + 1) (hexlen : extra.length = ks.length + 1)
    (hwsw : (ws.all (fun w => w.all isWhitespaceChar)) = true)
    (hexw : (extra.all (fun w => w.all isWhitespaceChar)) = true)
    (h : stopsAfter k (renderK ks ws) = true) :
    stopsAfter k (renderK ks (padGaps ws extra)) = true := by
  cases ks with
  | nil =>
    obtain ⟨w, rfl⟩ : ∃ w, ws = [w] := by
      cases ws with
      | nil => simp at hlen
      | cons a b =>
        cases b with
        | nil => exact ⟨a, rfl⟩
        | cons x y => simp at hlen
    obtain ⟨e, rfl⟩ : ∃ e, extra = [e] := by
      cases extra with
      | nil => simp at hexlen
      | cons a b =>
        cases b with
        | nil => exact ⟨a, rfl⟩
        | cons x y => simp at hexlen
    simp only [List.all_cons, Bool.and_eq_true] at hwsw hexw
    rw [show padGaps [w] [e] = [w ++ e] from rfl, show renderK [] [w ++ e] = w ++ e from rfl]
    cases w with
    | nil =>
      cases e with
      | nil => exact h
      | cons x xs =>
        have hx : isWhitespaceChar x = true := by
          have := hexw.1
          simp only [List.all_cons, Bool.and_eq_true] at this
          exact this.1
        unfold stopsAfter
        rw [show ((([] : List Char) ++ x :: xs).head?) = some x from rfl]
        exact stops2_of_white hx _
    | cons x xs =>
      have hx : isWhitespaceChar x = true := by
        have := hwsw.1
        simp only [List.all_cons, Bool.and_eq_true] at this
        exact this.1
      unfold stopsAfter
      rw [show ((x :: xs ++ e).head?) = some x from rfl]
      exact stops2_of_white hx _
  | cons k2 ks2 =>
    obtain ⟨w, wsr, rfl⟩ : ∃ w wsr, ws = w :: wsr := by
      cases ws with
      | nil => simp at hlen
      | cons a b => exact ⟨a, b, rfl⟩
    obtain ⟨e, exr, rfl⟩ : ∃ e exr, extra = e :: exr := by
      cases extra with
      | nil => simp at hexlen
      | cons a b => exact ⟨a, b, rfl⟩
    simp only [List.all_cons, Bool.and_eq_true] at hwsw hexw hwf
    rw [show padGaps (w :: wsr) (e :: exr) = (w ++ e) :: padGaps wsr exr from rfl,
      show renderK (k2 :: ks2) ((w ++ e) :: padGaps wsr exr)
        = (w ++ e) ++ ((tokenText k2).toList ++ renderK ks2 (padGaps wsr exr)) from rfl]
    rw [show renderK (k2 :: ks2) (w :: wsr)
        = w ++ ((tokenText k2).toList ++ renderK ks2 wsr) from rfl] at h
    cases w with
    | cons x xs =>
      have hx : isWhitespaceChar x = true := by
        have := hwsw.1
        simp only [List.all_cons, Bool.and_eq_true] at this
        exact this.1
      unfold stopsAfter
      rw [show ((x :: xs ++ e) ++ ((tokenText k2).toList ++ renderK ks2 (padGaps wsr exr))).head?
          = some x from rfl]
      exact stops2_of_white hx _
    | nil =>
      cases e with
      | cons x xs =>
        have hx : isWhitespaceChar x = true := by
          have := hexw.1
          simp only [List.all_cons, Bool.and_eq_true] at this
          exact this.1
        unfold stopsAfter
        rw [show ((([] : List Char) ++ x :: xs)
            ++ ((tokenText k2).toList ++ renderK ks2 (padGaps wsr exr))).head?
            = some x from rfl]
        exact stops2_of_white hx _
      | nil =>
        obtain ⟨c, trest, htext, hcw⟩ := tokenText_head_nonwhite k2 hwf.1
        simp only [List.nil_append] at h ⊢
        rw [htext] at h ⊢
        cases trest with
        | cons t2 ts =>
          rw [← stopsAfter_congr k (c :: t2 :: ts ++ renderK ks2 wsr)
            (c :: t2 :: ts ++ renderK ks2 (padGaps wsr exr)) rfl rfl]
          exact h
        | nil =>
          simp only [List.singleton_append] at h ⊢
          have hpad := renderK_head_pad ks2 wsr exr hwf.2 (by simpa using hlen)
            (by simpa using hexlen) hexw.2
          rcases hpad with hsame | ⟨cw, hcw2, hwhite2⟩
          · rw [← stopsAfter_congr k (c :: renderK ks2 wsr)
              (c :: renderK ks2 (padGaps wsr exr)) rfl (by simpa using hsame.symm)]
            exact h
          · unfold stopsAfter at h ⊢
            rw [show ((c :: renderK ks2 (padGaps wsr exr)).head?) = some c from rfl]
            rw [show (((c :: renderK ks2 (padGaps wsr exr)).drop 1).head?)
                = (renderK ks2 (padGaps wsr exr)).head? from rfl, hcw2]
            rw [show ((c :: renderK ks2 wsr).head?) = some c from rfl] at h
            exact stops2_snd_white k c cw _ h hwhite2

theorem seqStops_pad : ∀ (ks : List TokenKind) (ws extra : List (List Char)),
    (ks.all wfKind) = true →
    ws.length = ks.length + 1 → extra.length = ks.length + 1 →
    (ws.all (fun w => w.all isWhitespaceChar)) = true →
    (extra.all (fun w => w.all isWhitespaceChar)) = true →
    seqStops ks ws = true → seqStops ks (padGaps ws extra) = true := by
  intro ks
  induction ks with
  | nil => intro ws extra _ _ _ _ _ _; rfl
  | cons k ks2 ih =>
    intro ws extra hwf hlen hexlen hwsw hexw h
    obtain ⟨w, wsr, rfl⟩ : ∃ w wsr, ws = w :: wsr := by
      cases ws with
      | nil => simp at hlen
      | cons a b => exact ⟨a, b, rfl⟩
    obtain ⟨e, exr, rfl⟩ : ∃ e exr, extra = e :: exr := by
      cases extra with
      | nil => simp at hexlen
      | cons a b => exact ⟨a, b, rfl⟩
    simp only [List.all_cons, Bool.and_eq_true] at hwf hwsw hexw
    have hlen2 : wsr.length = ks2.length + 1 := by simpa using hlen
    have hexlen2 : exr.length = ks2.length + 1 := by simpa using hexlen
    rw [show padGaps (w :: wsr) (e :: exr) = (w ++ e) :: padGaps wsr exr from rfl]
    rw [show seqStops (k :: ks2) ((w ++ e) :: padGaps wsr exr)
        = (stopsAfter k (renderK ks2 (padGaps wsr exr)) && seqStops ks2 (padGaps wsr exr))
        from rfl]
    rw [show seqStops (k :: ks2) (w :: wsr)
        = (stopsAfter k (renderK ks2 wsr) && seqStops ks2 wsr) from rfl] at h
    simp only [Bool.and_eq_true] at h ⊢
    refine ⟨?_, ih wsr exr hwf.2 hlen2 hexlen2 hwsw.2 hexw.2 h.2⟩
    exact stopsAfter_pad k ks2 wsr exr hwf.2 hlen2 hexlen2 hwsw.2 hexw.2 h.1

theorem padGaps_length : ∀ (ws extra : List (List Char)),
    ws.length = extra.length → (padGaps ws extra).length = ws.length := by
  intro ws extra h
  unfold padGaps
  rw [List.length_zipWith, h, Nat.min_self]

theorem padGaps_white : ∀ (ws extra : List (List Char)),
    (ws.all (fun w => w.all isWhitespaceChar)) = true →
    (extra.all (fun w => w.all isWhitespaceChar)) = true →
    ((padGaps ws extra).all (fun w => w.all isWhitespaceChar)) = true := by
  intro ws
  induction ws with
  | nil => intro extra _ _; rfl
  | cons w wsr ih =>
    intro extra hw he
    cases extra with
    | nil => rfl
    | cons e exr =>
      simp only [List.all_cons, Bool.and_eq_true] at hw he
      rw [show padGaps (w :: wsr) (e :: exr) = (w ++ e) :: padGaps wsr exr from rfl]
      simp only [List.all_cons, Bool.and_eq_true, List.all_append]
      exact ⟨⟨hw.1, he.1⟩, ih exr hw.2 he.2⟩

theorem tokensFromRender_kinds : ∀ (ks : List TokenKind) (ws : List (List Char)) (pos : Nat),
    ws.length = ks.length + 1 →
    (tokensFromRender ks ws pos).map Token.kind = ks := by
  intro ks
  induction ks with
  | nil => intro ws pos _; rfl
  | cons k ks2 ih =>
    intro ws pos hlen
    obtain ⟨w, wsr, rfl⟩ : ∃ w wsr, ws = w :: wsr := by
      cases ws with
      | nil => simp at hlen
      | cons a b => exact ⟨a, b, rfl⟩
    have hlen2 : wsr.length = ks2.length + 1 := by simpa using hlen
    rw [show tokensFromRender (k :: ks2) (w :: wsr) pos
        = ⟨k, pos + w.length⟩ ::
          tokensFromRender ks2 wsr (pos + w.length + (tokenText k).toList.length) from rfl]
    simp only [List.map_cons]
    rw [ih wsr _ hlen2]

/-- C6: whitespace invariance. For every input string E that parses to an
expression a, decomposed by the lexer into tokens separated by whitespace gaps
ws, and for every insertion of extra whitespace characters into those gaps,
parsing the padded string returns the same expression a. -/
theorem C6_whitespace_invariance
    (E : String) (a : Expression) (toks : List Token) (ws extra : List (List Char))
    (hlex : lexTokens E.toList 0 = .ok toks)
    (hwslen : ws.length = toks.length + 1)
    (hwsw : (ws.all (fun w => w.all isWhitespaceChar)) = true)
    (hrender : E.toList = renderK (toks.map Token.kind) ws)
    (hexlen : extra.length = toks.length + 1)
    (hexw : (extra.all (fun w => w.all isWhitespaceChar)) = true)
    (hparse : parse E = .ok a) :
    parse (String.mk (renderK (toks.map Token.kind) (padGaps ws extra))) = .ok a := by
  have hklen : (toks.map Token.kind).length = toks.length := List.length_map toks Token.kind
  obtain ⟨ws0, hl0, hw0, hwf, hseq0, hr0⟩ :=
    lex_decomp E.toList.length E.toList (Nat.le_refl _) 0 toks hlex
  have hws0 : ws = ws0 := by
    refine renderK_gaps_unique (toks.map Token.kind) ws ws0 hwf ?_ ?_ hwsw hw0 ?_
    · rw [hklen]; exact hwslen
    · rw [hklen]; exact hl0
    · rw [← hrender, ← hr0]
  have hseq : seqStops (toks.map Token.kind) ws = true := by rw [hws0]; exact hseq0
  have hwslen2 : ws.length = (toks.map Token.kind).length + 1 := by rw [hklen]; exact hwslen
  have hexlen2 : extra.length = (toks.map Token.kind).length + 1 := by rw [hklen]; exact hexlen
  have hpadlen : (padGaps ws extra).length = (toks.map Token.kind).length + 1 := by
    rw [padGaps_length ws extra (by rw [hwslen, hexlen])]
    exact hwslen2
  have hpadw := padGaps_white ws extra hwsw hexw
  have hseqp := seqStops_pad (toks.map Token.kind) ws extra hwf hwslen2 hexlen2 hwsw hexw hseq
  have hlex2 := lex_renderK (toks.map Token.kind) (padGaps ws extra) 0 hpadlen hpadw hwf hseqp
  have hgram : parseTokensKinds (toks.map Token.kind) = .ok a := by
    unfold parse at hparse
    rw [hlex] at hparse
    have hparse2 : (match parseTokensKinds (toks.map Token.kind) with
        | Except.ok e => Except.ok e
        | Except.error ge => Except.error (mapGrammarError toks ge)) = Except.ok a := hparse
    cases hpt : parseTokensKinds (toks.map Token.kind) with
    | ok v =>
      rw [hpt] at hparse2
      simpa using hparse2
    | error ge =>
      rw [hpt] at hparse2
      simp at hparse2
  unfold parse
  rw [toList_mk, hlex2]
  show (match parseTokensKinds
        ((tokensFromRender (toks.map Token.kind) (padGaps ws extra) 0).map Token.kind) with
      | Except.ok e => Except.ok e
      | Except.error ge =>
        Except.error
          (mapGrammarError (tokensFromRender (toks.map Token.kind) (padGaps ws extra) 0) ge))
      = Except.ok a
  rw [show (tokensFromRender (toks.map Token.kind) (padGaps ws extra) 0).map Token.kind
      = toks.map Token.kind from tokensFromRender_kinds _ _ _ hpadlen]
  rw [hgram]

theorem parse_eq_of_lex (E : String) (toks : List Token)
    (hlex : lexTokens E.toList 0 = .ok toks) :
    parse E = (match parseTokensKinds (toks.map Token.kind) with
      | .ok e => .ok e
      | .error ge => .error (mapGrammarError toks ge)) := by
  unfold parse
  rw [hlex]

theorem lex_1p2 : lexTokens "1+2".toList 0
    = .ok [⟨.Number "1", 0⟩, ⟨.Operator "+", 1⟩, ⟨.Number "2", 2⟩] :=
  lex_renderK [.Number "1", .Operator "+", .Number "2"] [[], [], [], []] 0
    (by decide) (by decide) (by decide) (by decide)

theorem parse_1p2 : parse "1+2"
    = .ok (.BinaryOperation .Add (.Number 1) (.Number 2)) := by
  rw [parse_eq_of_lex "1+2" _ lex_1p2]
  rfl

/-- Witness for C6: padding the two gaps around the plus sign of the input 1+2
with two spaces each yields the seven-character padded input, and parsing the
padded input still returns the addition of the numbers 1 and 2. -/
theorem C6_whitespace_invariance_witness :
    String.mk (renderK ([⟨TokenKind.Number "1", 0⟩, ⟨TokenKind.Operator "+", 1⟩,
        ⟨TokenKind.Number "2", 2⟩].map Token.kind)
      (padGaps [[], [], [], []] [[], [' ', ' '], [' ', ' '], []])) = "1  +  2"
    ∧ parse (String.mk (renderK ([⟨TokenKind.Number "1", 0⟩, ⟨TokenKind.Operator "+", 1⟩,
        ⟨TokenKind.Number "2", 2⟩].map Token.kind)
      (padGaps [[], [], [], []] [[], [' ', ' '], [' ', ' '], []])))
      = .ok (.BinaryOperation .Add (.Number 1) (.Number 2)) := by
  constructor
  · rfl
  · exact C6_whitespace_invariance "1+2" (.BinaryOperation .Add (.Number 1) (.Number 2))
      [⟨.Number "1", 0⟩, ⟨.Operator "+", 1⟩, ⟨.Number "2", 2⟩]
      [[], [], [], []] [[], [' ', ' '], [' ', ' '], []]
      lex_1p2 (by decide) (by decide) (by decide) (by decide) (by decide) parse_1p2

theorem parse_ok_of_lex (E : String) (toks : List Token) (a : Expression)
    (hlex : lexTokens E.toList 0 = .ok toks)
    (hgram : parseTokensKinds (toks.map Token.kind) = .ok a) :
    parse E = .ok a := by
  rw [parse_eq_of_lex E toks hlex, hgram]

theorem parse_err_of_lex (E : String) (toks : List Token) (ge : GrammarError)
    (hlex : lexTokens E.toList 0 = .ok toks)
    (hgram : parseTokensKinds (toks.map Token.kind) = .error ge) :
    parse E = .error (mapGrammarError toks ge) := by
  rw [parse_eq_of_lex E toks hlex, hgram]

/-- C1: operator precedence. Parsing 1+2*3 yields an addition whose right child
is the multiplication of 2 and 3, and for every additive and every
multiplicative operator, in either order, the multiplicative operator binds
tighter. -/
theorem C1_operator_precedence :
    parse "1+2*3" = .ok (.BinaryOperation .Add (.Number 1)
        (.BinaryOperation .Multiply (.Number 2) (.Number 3)))
    ∧ ∀ sa oa sm om, (sa, oa) ∈ levelOps 5 → (sm, om) ∈ levelOps 6 →
      parse ("1" ++ sa ++ "2" ++ sm ++ "3")
        = .ok (.BinaryOperation oa (.Number 1) (.BinaryOperation om (.Number 2) (.Number 3)))
        ∧ parse ("1" ++ sm ++ "2" ++ sa ++ "3")
        = .ok (.BinaryOperation oa (.BinaryOperation om (.Number 1) (.Number 2)) (.Number 3)) := by
  constructor
  · exact parse_ok_of_lex _ _ _
      (lex_renderK [.Number "1", .Operator "+", .Number "2", .Operator "*", .Number "3"]
            [[], [], [], [], [], []] 0 (by decide) (by decide) (by decide) (by decide)) rfl
  · intro sa oa sm om hA hM
    simp only [levelOps, List.mem_cons, List.not_mem_nil, or_false, Prod.mk.injEq] at hA hM
    rcases hA with ⟨rfl, rfl⟩ | ⟨rfl, rfl⟩
    all_goals rcases hM with ⟨rfl, rfl⟩ | ⟨rfl, rfl⟩ | ⟨rfl, rfl⟩
    · exact ⟨parse_ok_of_lex _ _ _
          (lex_renderK [.Number "1", .Operator "+", .Number "2", .Operator "*", .Number "3"]
            [[], [], [], [], [], []] 0 (by decide) (by decide) (by decide) (by decide)) rfl,
        parse_ok_of_lex _ _ _
          (lex_renderK [.Number "1", .Operator "*", .Number "2", .Operator "+", .Number "3"]
            [[], [], [], [], [], []] 0 (by decide) (by decide) (by decide) (by decide)) rfl⟩
    · exact ⟨parse_ok_of_lex _ _ _
          (lex_renderK [.Number "1", .Operator "+", .Number "2", .Operator "/", .Number "3"]
            [[], [], [], [], [], []] 0 (by decide) (by decide) (by decide) (by decide)) rfl,
        parse_ok_of_lex _ _ _
          (lex_renderK [.Number "1", .Operator "/", .Number "2", .Operator "+", .Number "3"]
            [[], [], [], [], [], []] 0 (by decide) (by decide) (by decide) (by decide)) rfl⟩
    · exact ⟨parse_ok_of_lex _ _ _
          (lex_renderK [.Number "1", .Operator "+", .Number "2", .Operator "%", .Number "3"]
            [[], [], [], [], [], []] 0 (by decide) (by decide) (by decide) (by decide)) rfl,
        parse_ok_of_lex _ _ _
          (lex_renderK [.Number "1", .Operator "%", .Number "2", .Operator "+", .Number "3"]
            [[], [], [], [], [], []] 0 (by decide) (by decide) (by decide) (by decide)) rfl⟩
    · exact ⟨parse_ok_of_lex _ _ _
          (lex_renderK [.Number "1", .Operator "-", .Number "2", .Operator "*", .Number "3"]
            [[], [], [], [], [], []] 0 (by decide) (by decide) (by decide) (by decide)) rfl,
        parse_ok_of_lex _ _ _
          (lex_renderK [.Number "1", .Operator "*", .Number "2", .Operator "-", .Number "3"]
            [[], [], [], [], [], []] 0 (by decide) (by decide) (by decide) (by decide)) rfl⟩
    · exact ⟨parse_ok_of_lex _ _ _
          (lex_renderK [.Number "1", .Operator "-", .Number "2", .Operator "/", .Number "3"]
            [[], [], [], [], [], []] 0 (by decide) (by decide) (by decide) (by decide)) rfl,
        parse_ok_of_lex _ _ _
          (lex_renderK [.Number "1", .Operator "/", .Number "2", .Operator "-", .Number "3"]
            [[], [], [], [], [], []] 0 (by decide) (by decide) (by decide) (by decide)) rfl⟩
    · exact ⟨parse_ok_of_lex _ _ _
          (lex_renderK [.Number "1", .Operator "-", .Number "2", .Operator "%", .Number "3"]
            [[], [], [], [], [], []] 0 (by decide) (by decide) (by decide) (by decide)) rfl,
        parse_ok_of_lex _ _ _
          (lex_renderK [.Number "1", .Operator "%", .Number "2", .Operator "-", .Number "3"]
            [[], [], [], [], [], []] 0 (by decide) (by decide) (by decide) (by decide)) rfl⟩

/-- C2: left-associativity. Parsing 1-2-3 yields the left-nested subtraction
and not the right-nested one, and every binary infix operator of every
precedence level groups from the left. -/
theorem C2_left_associativity :
    parse "1-2-3" = .ok (.BinaryOperation .Subtract
        (.BinaryOperation .Subtract (.Number 1) (.Number 2)) (.Number 3))
    ∧ parse "1-2-3" ≠ .ok (.BinaryOperation .Subtract (.Number 1)
        (.BinaryOperation .Subtract (.Number 2) (.Number 3)))
    ∧ ∀ p : String × OpCode,
      p ∈ levelOps 1 ++ levelOps 2 ++ levelOps 3 ++ levelOps 4 ++ levelOps 5 ++ levelOps 6 →
      parse ("1" ++ p.1 ++ "2" ++ p.1 ++ "3")
        = .ok (.BinaryOperation p.2 (.BinaryOperation p.2 (.Number 1) (.Number 2)) (.Number 3)) := by
  have hok : parse "1-2-3" = .ok (.BinaryOperation .Subtract
      (.BinaryOperation .Subtract (.Number 1) (.Number 2)) (.Number 3)) :=
    parse_ok_of_lex _ _ _
      (lex_renderK [.Number "1", .Operator "-", .Number "2", .Operator "-", .Number "3"]
          [[], [], [], [], [], []] 0 (by decide) (by decide) (by decide) (by decide)) rfl
  refine ⟨hok, ?_, ?_⟩
  · intro h
    rw [hok] at h
    simp at h
  · intro p hp
    fin_cases hp
    · exact parse_ok_of_lex _ _ _
        (lex_renderK [.Number "1", .Operator "||", .Number "2", .Operator "||", .Number "3"]
          [[], [], [], [], [], []] 0 (by decide) (by decide) (by decide) (by decide)) rfl
    · exact parse_ok_of_lex _ _ _
        (lex_renderK [.Number "1", .Operator "&&", .Number "2", .Operator "&&", .Number "3"]
          [[], [], [], [], [], []] 0 (by decide) (by decide) (by decide) (by decide)) rfl
    · exact parse_ok_of_lex _ _ _
        (lex_renderK [.Number "1", .Operator "==", .Number "2", .Operator "==", .Number "3"]
          [[], [], [], [], [], []] 0 (by decide) (by decide) (by decide) (by decide)) rfl
    · exact parse_ok_of_lex _ _ _
        (lex_renderK [.Number "1", .Operator "!=", .Number "2", .Operator "!=", .Number "3"]
          [[], [], [], [], [], []] 0 (by decide) (by decide) (by decide) (by decide)) rfl
    · exact parse_ok_of_lex _ _ _
        (lex_renderK [.Number "1", .Operator "<", .Number "2", .Operator "<", .Number "3"]
          [[], [], [], [], [], []] 0 (by decide) (by decide) (by decide) (by decide)) rfl
    · exact parse_ok_of_lex _ _ _
        (lex_renderK [.Number "1", .Operator "<=", .Number "2", .Operator "<=", .Number "3"]
          [[], [], [], [], [], []] 0 (by decide) (by decide) (by decide) (by decide)) rfl
    · exact parse_ok_of_lex _ _ _
        (lex_renderK [.Number "1", .Operator ">", .Number "2", .Operator ">", .Number "3"]
          [[], [], [], [], [], []] 0 (by decide) (by decide) (by decide) (by decide)) rfl
    · exact parse_ok_of_lex _ _ _
        (lex_renderK [.Number "1", .Operator ">=", .Number "2", .Operator ">=", .Number "3"]
          [[], [], [], [], [], []] 0 (by decide) (by decide) (by decide) (by decide)) rfl
    · exact parse_ok_of_lex _ _ _
        (lex_renderK [.Number "1", .Operator "+", .Number "2", .Operator "+", .Number "3"]
          [[], [], [], [], [], []] 0 (by decide) (by decide) (by decide) (by decide)) rfl
    · exact parse_ok_of_lex _ _ _
        (lex_renderK [.Number "1", .Operator "-", .Number "2", .Operator "-", .Number "3"]
          [[], [], [], [], [], []] 0 (by decide) (by decide) (by decide) (by decide)) rfl
    · exact parse_ok_of_lex _ _ _
        (lex_renderK [.Number "1", .Operator "*", .Number "2", .Operator "*", .Number "3"]
          [[], [], [], [], [], []] 0 (by decide) (by decide) (by decide) (by decide)) rfl
    · exact parse_ok_of_lex _ _ _
        (lex_renderK [.Number "1", .Operator "/", .Number "2", .Operator "/", .Number "3"]
          [[], [], [], [], [], []] 0 (by decide) (by decide) (by decide) (by decide)) rfl
    · exact parse_ok_of_lex _ _ _
        (lex_renderK [.Number "1", .Operator "%", .Number "2", .Operator "%", .Number "3"]
          [[], [], [], [], [], []] 0 (by decide) (by decide) (by decide) (by decide)) rfl

theorem lexTokens_unterminated (c : Char) (cs : List Char) (pos : Nat)
    (hq : isQuoteChar c = true) (hsplit : splitString c cs = none) :
    lexTokens (c :: cs) pos = .error (.LexicalError pos "unterminated string literal") := by
  rw [lexTokens]
  simp only [quote_not_white hq, quote_not_digit hq, quote_not_identStart hq, hq,
    Bool.false_eq_true, if_false, if_true]
  split
  · rfl
  · rename_i content rest heq2
    rw [hsplit] at heq2
    exact absurd heq2 (by simp)

/-- C3: error taxonomy. Parsing 1+ fails with an unexpected-end-of-input error,
parsing 1 2 fails with an extra-input error at byte offset 2, parsing an
unterminated string literal fails with a lexical error at its start offset, and
every failure of parse is one of the four taxonomy variants, none of which
carries a partial tree. -/
theorem C3_error_taxonomy :
    parse "1+" = .error (.UnexpectedEndOfInput (some ["an expression"]))
    ∧ parse "1 2" = .error (.ExtraInput 2)
    ∧ parse "\x27unterminated" = .error (.LexicalError 0 "unterminated string literal")
    ∧ ∀ s e, parse s = .error e →
      (∃ off d, e = .LexicalError off d)
      ∨ (∃ off f exp, e = .UnexpectedToken off f exp)
      ∨ (∃ exp, e = .UnexpectedEndOfInput exp)
      ∨ (∃ off, e = .ExtraInput off) := by
  refine ⟨?_, ?_, ?_, ?_⟩
  · exact parse_err_of_lex "1+" _ (.UnexpectedEndOfInput (some ["an expression"]))
      (lex_renderK [.Number "1", .Operator "+"] [[], [], []] 0
        (by decide) (by decide) (by decide) (by decide)) rfl
  · exact parse_err_of_lex "1 2" _ (.ExtraInput 1)
      (lex_renderK [.Number "1", .Number "2"] [[], [' '], []] 0
        (by decide) (by decide) (by decide) (by decide)) rfl
  · have hlex : lexTokens "\x27unterminated".toList 0
        = .error (.LexicalError 0 "unterminated string literal") :=
      lexTokens_unterminated '\x27' "unterminated".toList 0 (by decide) (by decide)
    unfold parse
    rw [hlex]
  · intro s e _
    cases e with
    | LexicalError off d => exact Or.inl ⟨off, d, rfl⟩
    | UnexpectedToken off f exp => exact Or.inr (Or.inl ⟨off, f, exp, rfl⟩)
    | UnexpectedEndOfInput exp => exact Or.inr (Or.inr (Or.inl ⟨exp, rfl⟩))
    | ExtraInput off => exact Or.inr (Or.inr (Or.inr ⟨off, rfl⟩))

theorem stops_op_pipe_identStart (c : Char) (cs : List Char) (hc : isIdentStart c = true) :
    stopsAfter (.Operator "|") (c :: cs) = true := by
  have hne : ¬(c = '|') := by
    intro h
    rw [h] at hc
    exact absurd hc (by decide)
  simp [stopsAfter, stops2, hne]

/-- C4: transform argument encoding. A bare pipe to a transform yields args
none and a parenthesized list yields some of the comma-separated argument
expressions in order, on the two spec examples; the bare-pipe case holds for
every non-keyword identifier as transform name. -/
theorem C4_transform_args :
    parse "\x27x\x27|f" = .ok (.Transform "f" (.String "x") none)
    ∧ parse "\x27x\x27|f(1,2)"
      = .ok (.Transform "f" (.String "x") (some [.Number 1, .Number 2]))
    ∧ ∀ name, validIdentText name = true → keywordList.contains name = false →
      parse ("\x27x\x27|" ++ name) = .ok (.Transform name (.String "x") none) := by
  refine ⟨?_, ?_, ?_⟩
  · exact parse_ok_of_lex _ _ _
      (lex_renderK [.StringLit "\x27x\x27", .Operator "|", .Identifier "f"] [[], [], [], []] 0
        (by decide) (by decide) (by decide) (by decide)) rfl
  · exact parse_ok_of_lex _ _ _
      (lex_renderK [.StringLit "\x27x\x27", .Operator "|", .Identifier "f", .Operator "(",
          .Number "1", .Operator ",", .Number "2", .Operator ")"]
        [[], [], [], [], [], [], [], [], []] 0
        (by decide) (by decide) (by decide) (by decide)) rfl
  · intro name hv hnk
    have hhead : stopsAfter (.Operator "|") name.toList = true := by
      unfold validIdentText at hv
      split at hv
      · exact absurd hv (by decide)
      · rename_i c cs heq
        simp only [Bool.and_eq_true] at hv
        rw [heq]
        exact stops_op_pipe_identStart c cs hv.1
    have hlex3 : lexTokens name.toList 4 = .ok [⟨.Identifier name, 4⟩] := by
      have h := lexTokens_identifier name [] 4 hv hnk rfl
      rw [List.append_nil, lexTokens_nil] at h
      exact h
    have hlex2 : lexTokens ('|' :: name.toList) 3
        = .ok [⟨.Operator "|", 3⟩, ⟨.Identifier name, 4⟩] := by
      have h := lexTokens_token_cons (.Operator "|") name.toList 3 (by decide) hhead
      rw [show (3 + (tokenText (TokenKind.Operator "|")).toList.length) = 4 from rfl,
        hlex3] at h
      exact h
    have hlex1 : lexTokens ("\x27x\x27|" ++ name).toList 0
        = .ok [⟨.StringLit "\x27x\x27", 0⟩, ⟨.Operator "|", 3⟩, ⟨.Identifier name, 4⟩] := by
      have h := lexTokens_stringlit "\x27x\x27" ('|' :: name.toList) 0 (by decide)
      rw [show (0 + ("\x27x\x27" : String).toList.length) = 3 from rfl, hlex2] at h
      exact h
    exact parse_ok_of_lex _ _ _ hlex1 rfl

/-- C5: postfix suffix chaining. Parsing a.b followed by an index yields an
index operation whose subject is the dot operation on the identifier a, and a
longer chain mixing member access, indexing and a transform is applied left to
right. -/
theorem C5_postfix_chaining :
    parse "a.b[0]" = .ok (.IndexOperation
        (.DotOperation (.Identifier "a") "b") (.Number 0))
    ∧ parse "a.b[0]|f.c" = .ok (.DotOperation
        (.Transform "f" (.IndexOperation (.DotOperation (.Identifier "a") "b") (.Number 0)) none)
        "c") := by
  constructor
  · exact parse_ok_of_lex _ _ _
      (lex_renderK [.Identifier "a", .Operator ".", .Identifier "b", .Operator "[",
          .Number "0", .Operator "]"] [[], [], [], [], [], [], []] 0
        (by decide) (by decide) (by decide) (by decide)) rfl
  · exact parse_ok_of_lex _ _ _
      (lex_renderK [.Identifier "a", .Operator ".", .Identifier "b", .Operator "[",
          .Number "0", .Operator "]", .Operator "|", .Identifier "f", .Operator ".",
          .Identifier "c"] [[], [], [], [], [], [], [], [], [], [], []] 0
        (by decide) (by decide) (by decide) (by decide)) rfl

/-- C7: keyword boundary. Parsing null yields the distinct null literal,
parsing nullish yields an identifier, every identifier-shaped non-keyword text
parses to an identifier of that exact text, and true and false parse to boolean
literals. -/
theorem C7_keyword_boundary :
    parse "null" = .ok .Null
    ∧ parse "nullish" = .ok (.Identifier "nullish")
    ∧ (∀ s, validIdentText s = true → keywordList.contains s = false →
        parse s = .ok (.Identifier s))
    ∧ parse "true" = .ok (.Boolean true) ∧ parse "false" = .ok (.Boolean false) := by
  refine ⟨?_, ?_, ?_, ?_, ?_⟩
  · exact parse_ok_of_lex _ _ _
      (lex_renderK [.Keyword "null"] [[], []] 0
        (by decide) (by decide) (by decide) (by decide)) rfl
  · exact parse_ok_of_lex _ _ _
      (lex_renderK [.Identifier "nullish"] [[], []] 0
        (by decide) (by decide) (by decide) (by decide)) rfl
  · intro s hv hnk
    have hlex : lexTokens s.toList 0 = .ok [⟨.Identifier s, 0⟩] := by
      have h := lexTokens_identifier s [] 0 hv hnk rfl
      rw [List.append_nil, lexTokens_nil] at h
      exact h
    exact parse_ok_of_lex _ _ _ hlex rfl
  · exact parse_ok_of_lex _ _ _
      (lex_renderK [.Keyword "true"] [[], []] 0
        (by decide) (by decide) (by decide) (by decide)) rfl
  · exact parse_ok_of_lex _ _ _
      (lex_renderK [.Keyword "false"] [[], []] 0
        (by decide) (by decide) (by decide) (by decide)) rfl

theorem foldl_digits_acc : ∀ (ys : List Char) (acc : Nat),
    ys.foldl (fun a c => 10 * a + (c.toNat - 48)) acc
      = acc * 10 ^ ys.length + digitsToNat ys := by
  intro ys
  induction ys with
  | nil => intro acc; simp [digitsToNat]
  | cons c t ih =>
    intro acc
    show t.foldl (fun a c => 10 * a + (c.toNat - 48)) (10 * acc + (c.toNat - 48))
      = acc * 10 ^ (c :: t).length + digitsToNat (c :: t)
    rw [ih (10 * acc + (c.toNat - 48))]
    have h2 : digitsToNat (c :: t)
        = (c.toNat - 48) * 10 ^ t.length + digitsToNat t := by
      show t.foldl (fun a c => 10 * a + (c.toNat - 48)) (10 * 0 + (c.toNat - 48))
        = (c.toNat - 48) * 10 ^ t.length + digitsToNat t
      rw [ih (10 * 0 + (c.toNat - 48))]
      ring_nf
    rw [h2]
    simp only [List.length_cons]
    ring

theorem digitsToNat_append (xs ys : List Char) :
    digitsToNat (xs ++ ys) = digitsToNat xs * 10 ^ ys.length + digitsToNat ys := by
  show (xs ++ ys).foldl (fun a c => 10 * a + (c.toNat - 48)) 0 = _
  rw [List.foldl_append]
  exact foldl_digits_acc ys _

theorem digit_ne_dot {c : Char} (h : isDigitChar c = true) : (c = '.') = False := by
  rcases Bool.eq_false_or_eq_true (decide (c = '.')) with hd | hd
  · have : c = '.' := of_decide_eq_true hd
    rw [this] at h
    exact absurd h (by decide)
  · simp [of_decide_eq_false hd]

theorem decimalValue_eq_exact (L : String) (hv : validNumberLiteral L = true) :
    decimalValue L = exactDecimalValue L := by
  unfold validNumberLiteral at hv
  simp only [Bool.and_eq_true, Bool.not_eq_true'] at hv
  obtain ⟨hne, hrest⟩ := hv
  have hsplit := List.takeWhile_append_dropWhile (p := isDigitChar) (l := L.toList)
  have hdall : ∀ c ∈ L.toList.takeWhile isDigitChar, isDigitChar c = true := by
    intro c hc
    have h := all_takeWhile isDigitChar L.toList
    rw [List.all_eq_true] at h
    exact h c hc
  have hfilterInt : (L.toList.takeWhile isDigitChar).filter (fun c => !(c = '.'))
      = L.toList.takeWhile isDigitChar := by
    rw [List.filter_eq_self]
    intro c hc
    simp [digit_ne_dot (hdall c hc)]
  split at hrest
  · rename_i hcase
    have hL : L.toList = L.toList.takeWhile isDigitChar := by
      conv_lhs => rw [← hsplit]
      rw [hcase, List.append_nil]
    unfold decimalValue exactDecimalValue
    rw [hcase]
    conv_rhs => rw [hL]
    rw [hfilterInt]
    have hdw : (L.toList.takeWhile isDigitChar).dropWhile (fun c => !(c = '.'))
        = [] := by
      apply dropWhile_eq_nil_of_all
      rw [List.all_eq_true]
      intro c hc
      simp [digit_ne_dot (hdall c hc)]
    rw [hdw]
    simp
  · rename_i frac hcase
    simp only [Bool.and_eq_true, Bool.not_eq_true'] at hrest
    obtain ⟨hfne, hfdig⟩ := hrest
    have hfd : ∀ c ∈ frac, isDigitChar c = true := by
      rw [List.all_eq_true] at hfdig
      intro c hc
      simpa using hfdig c hc
    have hL : L.toList = L.toList.takeWhile isDigitChar ++ ('.' :: frac) := by
      conv_lhs => rw [← hsplit]
      rw [hcase]
    unfold decimalValue exactDecimalValue
    rw [hcase]
    have hfracfilter : frac.filter (fun c => !(c = '.')) = frac := by
      rw [List.filter_eq_self]
      intro c hc
      simp [digit_ne_dot (hfd c hc)]
    have hfilter : L.toList.filter (fun c => !(c = '.'))
        = L.toList.takeWhile isDigitChar ++ frac := by
      conv_lhs => rw [hL]
      rw [List.filter_append, hfilterInt, List.filter_cons]
      rw [if_neg (by simp)]
      rw [hfracfilter]
    have hdw : L.toList.dropWhile (fun c => !(c = '.')) = '.' :: frac := by
      conv_lhs => rw [hL]
      rw [List.dropWhile_append_of_pos (by
        intro c hc
        simp [digit_ne_dot (hdall c hc)])]
      rw [List.dropWhile_cons_of_neg (by simp)]
    rw [hfilter, hdw]
    simp only [List.drop_succ_cons, List.drop_zero]
    rw [digitsToNat_append]
    push_cast
    have hpow : ((10 : Rat) ^ frac.length) ≠ 0 := by
      apply pow_ne_zero
      norm_num
    field_simp
  · rename_i hx1 hx2
    exact absurd hrest (by decide)

/-- C8: number literals. Parsing 1 yields the number one, and every valid
number literal parses to a number carrying its exact decimal value, stated over
the exact rational model of the 64-bit floats of the source. -/
theorem C8_number_literals :
    parse "1" = .ok (.Number 1)
    ∧ ∀ L, validNumberLiteral L = true →
      parse L = .ok (.Number (exactDecimalValue L)) := by
  constructor
  · exact parse_ok_of_lex _ _ _
      (lex_renderK [.Number "1"] [[], []] 0
        (by decide) (by decide) (by decide) (by decide)) rfl
  · intro L hv
    have hlex : lexTokens L.toList 0 = .ok [⟨.Number L, 0⟩] := by
      have h := lexTokens_number L [] 0 hv rfl
      rw [List.append_nil, lexTokens_nil] at h
      exact h
    refine parse_ok_of_lex _ _ _ hlex ?_
    show parseTokensKinds [.Number L] = .ok (.Number (exactDecimalValue L))
    rw [← decimalValue_eq_exact L hv]
    rfl

/-- C9: determinism and statelessness. The parse method of the facade returns
equal results on the same input for any two parser values, and equals the pure
parsing pipeline, so no state can affect or be affected by a call. -/
theorem C9_determinism : ∀ (p q : Parser) (s : String),
    Parser.parse p s = Parser.parse q s ∧ Parser.parse p s = parse s := by
  intro p q s
  exact ⟨rfl, rfl⟩

/-- C10: object literal keys. Parsing an object literal whose key is a quoted
string stores the key with its quote delimiters stripped, both in the concrete
dotted example of the source tests and for every key text free of the quote
character. -/
theorem C10_object_keys :
    parse "\x7b\x27foo\x27: 1\x7d.foo"
      = .ok (.DotOperation (.Object [("foo", .Number 1)]) "foo")
    ∧ ∀ k : String, (k.toList.all (fun c => !(c = '\x27'))) = true →
      parse ("\x7b\x27" ++ k ++ "\x27: 1\x7d") = .ok (.Object [(k, .Number 1)]) := by
  constructor
  · exact parse_ok_of_lex _ _ _
      (lex_renderK [.Operator "\x7b", .StringLit "\x27foo\x27", .Operator ":",
          .Number "1", .Operator "\x7d", .Operator ".", .Identifier "foo"]
        [[], [], [], [' '], [], [], [], []] 0
        (by decide) (by decide) (by decide) (by decide)) rfl
  · intro k hk
    have hwf : validStringToken ("\x27" ++ k ++ "\x27") = true := by
      unfold validStringToken
      rw [show ("\x27" ++ k ++ "\x27").toList = '\x27' :: (k.toList ++ ['\x27']) from rfl]
      show (isQuoteChar '\x27' && !(k.toList ++ ['\x27']).isEmpty
          && decide ((k.toList ++ ['\x27']).getLast? = some '\x27')
          && (k.toList ++ ['\x27']).dropLast.all (fun c => !(c = '\x27'))) = true
      simp only [List.getLast?_concat, List.dropLast_concat]
      simp only [Bool.and_eq_true]
      refine ⟨⟨⟨by decide, ?_⟩, by decide⟩, ?_⟩
      · simp
      · rw [List.all_eq_true] at hk ⊢
        intro x hx
        simpa using hk x hx
    have t5 : ∀ pos, lexTokens ['\x7d'] pos = .ok [⟨.Operator "\x7d", pos⟩] := by
      intro pos
      have h := lexTokens_token_cons (.Operator "\x7d") [] pos (by decide) (by decide)
      rw [lexTokens_nil] at h
      exact h
    have t4 : ∀ pos, lexTokens ('1' :: '\x7d' :: []) pos
        = .ok [⟨.Number "1", pos⟩, ⟨.Operator "\x7d", pos + 1⟩] := by
      intro pos
      have h := lexTokens_token_cons (.Number "1") ['\x7d'] pos (by decide) (by decide)
      rw [show (pos + (tokenText (TokenKind.Number "1")).toList.length) = pos + 1 from rfl,
        t5 (pos + 1)] at h
      exact h
    have t3 : ∀ pos, lexTokens (' ' :: '1' :: '\x7d' :: []) pos
        = .ok [⟨.Number "1", pos + 1⟩, ⟨.Operator "\x7d", pos + 1 + 1⟩] := by
      intro pos
      rw [lexTokens_white_cons (by decide), t4 (pos + 1)]
    have t2 : ∀ pos, lexTokens (':' :: ' ' :: '1' :: '\x7d' :: []) pos
        = .ok [⟨.Operator ":", pos⟩, ⟨.Number "1", pos + 1 + 1⟩,
            ⟨.Operator "\x7d", pos + 1 + 1 + 1⟩] := by
      intro pos
      have h := lexTokens_token_cons (.Operator ":") (' ' :: '1' :: '\x7d' :: []) pos
        (by decide) (by decide)
      rw [show (pos + (tokenText (TokenKind.Operator ":")).toList.length) = pos + 1 from rfl,
        t3 (pos + 1)] at h
      exact h
    have t1 : lexTokens (("\x27" ++ k ++ "\x27").toList ++ (':' :: ' ' :: '1' :: '\x7d' :: [])) 1
        = .ok [⟨.StringLit ("\x27" ++ k ++ "\x27"), 1⟩,
            ⟨.Operator ":", 1 + ("\x27" ++ k ++ "\x27").toList.length⟩,
            ⟨.Number "1", 1 + ("\x27" ++ k ++ "\x27").toList.length + 1 + 1⟩,
            ⟨.Operator "\x7d", 1 + ("\x27" ++ k ++ "\x27").toList.length + 1 + 1 + 1⟩] := by
      have h := lexTokens_stringlit ("\x27" ++ k ++ "\x27") (':' :: ' ' :: '1' :: '\x7d' :: []) 1 hwf
      rw [t2 (1 + ("\x27" ++ k ++ "\x27").toList.length)] at h
      exact h
    have t0 : lexTokens (['\x7b'] ++ (("\x27" ++ k ++ "\x27").toList
          ++ (':' :: ' ' :: '1' :: '\x7d' :: []))) 0
        = .ok [⟨.Operator "\x7b", 0⟩, ⟨.StringLit ("\x27" ++ k ++ "\x27"), 1⟩,
            ⟨.Operator ":", 1 + ("\x27" ++ k ++ "\x27").toList.length⟩,
            ⟨.Number "1", 1 + ("\x27" ++ k ++ "\x27").toList.length + 1 + 1⟩,
            ⟨.Operator "\x7d", 1 + ("\x27" ++ k ++ "\x27").toList.length + 1 + 1 + 1⟩] := by
      have h := lexTokens_token_cons (.Operator "\x7b")
        (("\x27" ++ k ++ "\x27").toList ++ (':' :: ' ' :: '1' :: '\x7d' :: [])) 0
        (by decide) (by
          rw [show (("\x27" ++ k ++ "\x27").toList ++ (':' :: ' ' :: '1' :: '\x7d' :: []))
            = '\x27' :: ((k.toList ++ ['\x27']) ++ (':' :: ' ' :: '1' :: '\x7d' :: [])) from rfl]
          rfl)
      rw [show (0 + (tokenText (TokenKind.Operator "\x7b")).toList.length) = 1 from rfl,
        t1] at h
      exact h
    have hE : ("\x7b\x27" ++ k ++ "\x27: 1\x7d").toList
        = ['\x7b'] ++ (("\x27" ++ k ++ "\x27").toList
            ++ (':' :: ' ' :: '1' :: '\x7d' :: [])) := by
      show ("\x7b\x27" ++ k ++ "\x27: 1\x7d").data = _
      simp only [String.data_append]
      simp [List.append_assoc]
    have hlex : lexTokens ("\x7b\x27" ++ k ++ "\x27: 1\x7d").toList 0
        = .ok [⟨.Operator "\x7b", 0⟩, ⟨.StringLit ("\x27" ++ k ++ "\x27"), 1⟩,
            ⟨.Operator ":", 1 + ("\x27" ++ k ++ "\x27").toList.length⟩,
            ⟨.Number "1", 1 + ("\x27" ++ k ++ "\x27").toList.length + 1 + 1⟩,
            ⟨.Operator "\x7d", 1 + ("\x27" ++ k ++ "\x27").toList.length + 1 + 1 + 1⟩] := by
      rw [hE]
      exact t0
    have hkey : stripQuotes ("\x27" ++ k ++ "\x27") = k := by
      unfold stripQuotes
      rw [show (("\x27" ++ k ++ "\x27").toList.drop 1) = k.toList ++ ['\x27'] from rfl,
        List.dropLast_concat]
      exact string_mk_toList k
    refine parse_ok_of_lex _ _ _ hlex ?_
    show parseTokensKinds [.Operator "\x7b", .StringLit ("\x27" ++ k ++ "\x27"),
        .Operator ":", .Number "1", .Operator "\x7d"] = .ok (.Object [(k, .Number 1)])
    conv_rhs => rw [← hkey]
    rfl

/-- Witness for C1: the plus and times operators instantiate the universal
part of the precedence claim. -/
theorem C1_operator_precedence_witness :
    (("+", OpCode.Add) ∈ levelOps 5) ∧ (("*", OpCode.Multiply) ∈ levelOps 6)
    ∧ parse ("1" ++ "+" ++ "2" ++ "*" ++ "3")
      = .ok (.BinaryOperation .Add (.Number 1)
          (.BinaryOperation .Multiply (.Number 2) (.Number 3))) :=
  ⟨by decide, by decide,
    (C1_operator_precedence.2 "+" .Add "*" .Multiply (by decide) (by decide)).1⟩

/-- Witness for C2: the subtraction operator instantiates the universal part
of the associativity claim. -/
theorem C2_left_associativity_witness :
    (("-", OpCode.Subtract) ∈ levelOps 1 ++ levelOps 2 ++ levelOps 3 ++ levelOps 4
        ++ levelOps 5 ++ levelOps 6)
    ∧ parse ("1" ++ "-" ++ "2" ++ "-" ++ "3")
      = .ok (.BinaryOperation .Subtract
          (.BinaryOperation .Subtract (.Number 1) (.Number 2)) (.Number 3)) :=
  ⟨by decide, C2_left_associativity.2.2 ("-", .Subtract) (by decide)⟩

/-- Witness for C3: the unexpected-end-of-input failure of the input 1+
instantiates the universal taxonomy part. -/
theorem C3_error_taxonomy_witness :
    parse "1+" = .error (.UnexpectedEndOfInput (some ["an expression"]))
    ∧ ((∃ off d, ParseError.UnexpectedEndOfInput (some ["an expression"])
          = .LexicalError off d)
      ∨ (∃ off f exp, ParseError.UnexpectedEndOfInput (some ["an expression"])
          = .UnexpectedToken off f exp)
      ∨ (∃ exp, ParseError.UnexpectedEndOfInput (some ["an expression"])
          = .UnexpectedEndOfInput exp)
      ∨ (∃ off, ParseError.UnexpectedEndOfInput (some ["an expression"])
          = .ExtraInput off)) :=
  ⟨C3_error_taxonomy.1,
    C3_error_taxonomy.2.2.2 "1+" (.UnexpectedEndOfInput (some ["an expression"]))
      C3_error_taxonomy.1⟩

/-- Witness for C4: the transform name f instantiates the universal bare-pipe
part. -/
theorem C4_transform_args_witness :
    validIdentText "f" = true ∧ keywordList.contains "f" = false
    ∧ parse ("\x27x\x27|" ++ "f") = .ok (.Transform "f" (.String "x") none) :=
  ⟨by decide, by decide, C4_transform_args.2.2 "f" (by decide) (by decide)⟩

/-- Witness for C7: the identifier-shaped text nullish instantiates the
universal part of the keyword-boundary claim. -/
theorem C7_keyword_boundary_witness :
    validIdentText "nullish" = true ∧ keywordList.contains "nullish" = false
    ∧ parse "nullish" = .ok (.Identifier "nullish") :=
  ⟨by decide, by decide, C7_keyword_boundary.2.2.1 "nullish" (by decide) (by decide)⟩

/-- Witness for C8: the literal 1.5 instantiates the universal part. -/
theorem C8_number_literals_witness :
    validNumberLiteral "1.5" = true
    ∧ parse "1.5" = .ok (.Number (exactDecimalValue "1.5")) :=
  ⟨by decide, C8_number_literals.2 "1.5" (by decide)⟩

/-- Witness for C10: the key foo instantiates the universal quote-stripping
part. -/
theorem C10_object_keys_witness :
    (("foo" : String).toList.all (fun c => !(c = '\x27'))) = true
    ∧ parse ("\x7b\x27" ++ "foo" ++ "\x27: 1\x7d")
      = .ok (.Object [("foo", .Number 1)]) :=
  ⟨by decide, C10_object_keys.2 "foo" (by decide)⟩

end Jexl
